import Mathlib

/-!
Verification of the tab-manager extension's core logic against its
natural-language specification.

The JavaScript source is shallowly embedded: strings become `List Char`,
pure functions become Lean functions with the same names and the same
branch structure, and the stateful parts (window organization, the
debounce/re-entrancy scheduler, the auto-close timers) become explicit
state-passing functions or small labeled transition systems.  Host-owned
behaviour (the `chrome.*` directory) is modelled by the documented
semantics of the calls the code makes: querying returns the current
snapshot, `tabs.group` re-assigns membership, moves splice the tab list,
and a group whose last member leaves is garbage-collected by the host.
-/

/-! ## String embedding

JavaScript strings are modelled as `List Char`.  `jsToLower` models
`String.prototype.toLowerCase` (ASCII case mapping, which is all the
host/pattern alphabet uses). -/

abbrev Str := List Char

def str (s : String) : Str := s.toList

def jsToLower (s : Str) : Str := s.map Char.toLower

/-! ## PatternMatcher (source: unnamed background script)

`patternMatchesHost`, `globMatch` (the anchored regex produced by
`escapeRegex`/`globToRegExp`, where `*` becomes `.*` and every other
character is literal), and `patternMatchesUrl` are translated branch by
branch.  An empty `List Char` plays the role of the empty/absent
JavaScript string (the only falsy string value). -/

def patternMatchesHost (pattern host : Str) : Bool :=
  if pattern.isEmpty || host.isEmpty then false
  else
    let p := jsToLower pattern
    let h := jsToLower host
    if List.isPrefixOf ['*', '.'] p then
      let base := p.drop 2
      ('.' :: base).isSuffixOf h
    else h == p

def globMatch : Str → Str → Bool
  | [], s => s.isEmpty
  | c :: ps, s =>
    if c = '*' then s.tails.any (fun t => globMatch ps t)
    else
      match s with
      | [] => false
      | d :: t => c == d && globMatch ps t

def notSlash (c : Char) : Bool := c != '/'

def hostPartOf (pattern : Str) : Str := pattern.takeWhile notSlash

def pathPartOf (pattern : Str) : Str := pattern.dropWhile notSlash

def patternMatchesUrl (pattern host pathname : Str) : Bool :=
  if pattern.isEmpty || host.isEmpty then false
  else
    let hostPattern := hostPartOf pattern
    let pathPattern := pathPartOf pattern
    if !patternMatchesHost hostPattern host then false
    else if pathPattern.isEmpty then true
    else
      let path := if pathname.isEmpty then ['/'] else pathname
      if pathPattern.contains '*' then globMatch pathPattern path
      else path == pathPattern

/-! ## Declarative semantics for the glob expression

`GlobSpec` is the anchored-at-both-ends reading of the pattern: `*`
stands for zero or more characters, every other character is literal. -/

def GlobSpec : Str → Str → Prop
  | [], s => s = []
  | c :: ps, s =>
    if c = '*' then ∃ u v, s = u ++ v ∧ GlobSpec ps v
    else ∃ t, s = c :: t ∧ GlobSpec ps t

theorem globMatch_iff_globSpec (p : Str) :
    ∀ s, globMatch p s = true ↔ GlobSpec p s := by
  induction p with
  | nil =>
    intro s
    simp [globMatch, GlobSpec, List.isEmpty_iff]
  | cons c ps ih =>
    intro s
    by_cases hc : c = '*'
    · subst hc
      have hgm : globMatch ('*' :: ps) s = (s.tails.any fun t => globMatch ps t) := by
        simp [globMatch]
      have hgs : GlobSpec ('*' :: ps) s = ∃ u v, s = u ++ v ∧ GlobSpec ps v := by
        simp [GlobSpec]
      rw [hgm, hgs, List.any_eq_true]
      constructor
      · rintro ⟨t, ht, hm⟩
        rcases (List.mem_tails _ _).mp ht with ⟨u, hu⟩
        exact ⟨u, t, hu.symm, (ih t).mp hm⟩
      · rintro ⟨u, v, huv, hsp⟩
        exact ⟨v, (List.mem_tails _ _).mpr ⟨u, huv.symm⟩, (ih v).mpr hsp⟩
    · cases s with
      | nil =>
        simp [globMatch, GlobSpec, hc]
      | cons d t =>
        simp only [globMatch, GlobSpec, if_neg hc, Bool.and_eq_true, beq_iff_eq]
        constructor
        · rintro ⟨rfl, hm⟩
          exact ⟨t, rfl, (ih t).mp hm⟩
        · rintro ⟨t2, heq, hsp⟩
          rcases List.cons.injEq .. ▸ heq with ⟨rfl, rfl⟩
          exact ⟨rfl, (ih t).mpr hsp⟩

/-! ## ASCII lowercasing facts used to relate the lowercased pattern to
the raw pattern -/

theorem char_ofNat_toNat_upper_shift (n : Nat) (h : n ≥ 65 ∧ n ≤ 90) :
    (Char.ofNat (n + 32)).toNat = n + 32 := by
  have hv : (n + 32).isValidChar := Or.inl (by omega)
  simp [Char.ofNat, hv, Char.ofNatAux, Char.toNat, UInt32.toNat, BitVec.ofNatLt]

theorem toLower_eq_iff_low (c t : Char) (ht : t.toNat < 65) :
    Char.toLower c = t ↔ c = t := by
  constructor
  · intro h
    unfold Char.toLower at h
    by_cases hc : c.toNat ≥ 65 ∧ c.toNat ≤ 90
    · exfalso
      simp only [if_pos hc] at h
      have h2 := char_ofNat_toNat_upper_shift c.toNat hc
      rw [h] at h2
      omega
    · simpa [if_neg hc] using h
  · intro h
    subst h
    unfold Char.toLower
    rw [if_neg (by omega)]

/-! ## Claim C5 — host matching semantics -/

theorem beq_toLower_low (c t : Char) (ht : t.toNat < 65) :
    (t == Char.toLower c) = (t == c) := by
  by_cases hc : c = t
  · subst hc
    rw [(toLower_eq_iff_low c c ht).mpr rfl]
  · have hl : Char.toLower c ≠ t :=
      fun hEq => hc ((toLower_eq_iff_low c t ht).mp hEq)
    rw [beq_eq_false_iff_ne.mpr (Ne.symm hl), beq_eq_false_iff_ne.mpr (Ne.symm hc)]

theorem jsToLower_starDot (p : Str) :
    List.isPrefixOf ['*', '.'] (jsToLower p) = List.isPrefixOf ['*', '.'] p := by
  match p with
  | [] => rfl
  | [c] => simp [jsToLower, List.isPrefixOf]
  | c1 :: c2 :: rest =>
    have h1 := beq_toLower_low c1 '*' (by decide)
    have h2 := beq_toLower_low c2 '.' (by decide)
    simp only [jsToLower, List.map_cons, List.isPrefixOf, List.isPrefixOf_nil_left,
      Bool.and_true]
    rw [h1, h2]

theorem patternMatchesHost_wildcard (b h : Str) :
    patternMatchesHost ('*' :: '.' :: b) h = true ↔
      (h ≠ [] ∧ ∃ s : Str, jsToLower h = s ++ '.' :: jsToLower b) := by
  unfold patternMatchesHost
  cases hh : h.isEmpty
  · have hne : h ≠ [] := by simpa [List.isEmpty_iff] using hh
    simp only [List.isEmpty_cons, Bool.false_or, hh, if_neg Bool.false_ne_true]
    have hpre : List.isPrefixOf ['*', '.'] (jsToLower ('*' :: '.' :: b)) = true := by
      simp [jsToLower, List.isPrefixOf]
    rw [if_pos hpre]
    have hdrop : (jsToLower ('*' :: '.' :: b)).drop 2 = jsToLower b := by
      simp [jsToLower]
    rw [hdrop, List.isSuffixOf_iff_suffix]
    constructor
    · rintro ⟨s, hs⟩
      exact ⟨hne, s, hs.symm⟩
    · rintro ⟨_, s, hs⟩
      exact ⟨s, hs.symm⟩
  · have : h = [] := by simpa [List.isEmpty_iff] using hh
    subst this
    simp

theorem patternMatchesHost_wildcard_never_base (b : Str) :
    patternMatchesHost ('*' :: '.' :: b) b = false := by
  rcases Bool.eq_false_or_eq_true (patternMatchesHost ('*' :: '.' :: b) b) with h | h
  · exfalso
    rcases (patternMatchesHost_wildcard b b).mp h with ⟨_, s, hs⟩
    have hlen := congrArg List.length hs
    simp [jsToLower] at hlen
    omega
  · exact h

theorem patternMatchesHost_exact (p h : Str)
    (hp : List.isPrefixOf ['*', '.'] p = false) :
    patternMatchesHost p h = true ↔
      (p ≠ [] ∧ h ≠ [] ∧ jsToLower h = jsToLower p) := by
  unfold patternMatchesHost
  cases hpe : p.isEmpty
  · cases hhe : h.isEmpty
    · have hpne : p ≠ [] := by simpa [List.isEmpty_iff] using hpe
      have hhne : h ≠ [] := by simpa [List.isEmpty_iff] using hhe
      simp only [hpe, hhe, Bool.or_self, if_neg Bool.false_ne_true]
      rw [jsToLower_starDot, hp]
      simp [hpne, hhne, beq_iff_eq]
    · have : h = [] := by simpa [List.isEmpty_iff] using hhe
      subst this
      simp [hpe]
  · have : p = [] := by simpa [List.isEmpty_iff] using hpe
    subst this
    simp

/-- C5 counterexample: the wildcard pattern `*.com` matches the degenerate
host `.com`, although `.com` does not end in `.com` with at least one label
(not even one character) before it.  So "matches exactly when h ends with
'.'+b with at least one label before it" fails as stated. -/
theorem C5_counterexample :
    patternMatchesHost (str "*.com") (str ".com") = true ∧
    ¬ ∃ s : Str, s ≠ [] ∧
        jsToLower (str ".com") = s ++ '.' :: jsToLower (str "com") := by
  refine ⟨by decide, ?_⟩
  rintro ⟨s, hs, h⟩
  have h1 : (jsToLower (str ".com")).length = 4 := by decide
  have h2 : ('.' :: jsToLower (str "com")).length = 4 := by decide
  have h3 := congrArg List.length h
  rw [List.length_append, h2, h1] at h3
  have h0 : s.length = 0 := by omega
  exact hs (List.eq_nil_of_length_eq_zero h0)

/-- C5 (amended): the pattern `*.`+b matches host h exactly when the
lowercased h ends in `.`+lowercased b, i.e. h = s ++ '.' ++ b for some
possibly-empty s (hosts with a label before `.`+b match, but so does the
degenerate host `.`+b itself); the pattern never matches b itself; a
pattern with no leading `*.` matches exactly the identical host, compared
case-insensitively; `*.example.com` matches `a.example.com` and
`a.b.example.com` but not `example.com`, and `example.com` matches only
`example.com`. -/
theorem C5_host_match_semantics :
    (∀ b h, patternMatchesHost ('*' :: '.' :: b) h = true ↔
        (h ≠ [] ∧ ∃ s : Str, jsToLower h = s ++ '.' :: jsToLower b)) ∧
    (∀ b, patternMatchesHost ('*' :: '.' :: b) b = false) ∧
    (∀ p h, List.isPrefixOf ['*', '.'] p = false →
        (patternMatchesHost p h = true ↔
          (p ≠ [] ∧ h ≠ [] ∧ jsToLower h = jsToLower p))) ∧
    patternMatchesHost (str "*.example.com") (str "a.example.com") = true ∧
    patternMatchesHost (str "*.example.com") (str "a.b.example.com") = true ∧
    patternMatchesHost (str "*.example.com") (str "example.com") = false ∧
    patternMatchesHost (str "example.com") (str "example.com") = true :=
  ⟨patternMatchesHost_wildcard, patternMatchesHost_wildcard_never_base,
    patternMatchesHost_exact, by decide, by decide, by decide, by decide⟩

theorem C5_host_match_semantics_witness :
    patternMatchesHost (str "example.com") (str "EXAMPLE.com") = true ↔
      (str "example.com" ≠ [] ∧ str "EXAMPLE.com" ≠ [] ∧
        jsToLower (str "EXAMPLE.com") = jsToLower (str "example.com")) :=
  C5_host_match_semantics.2.2.1 (str "example.com") (str "EXAMPLE.com") (by decide)

/-! ## Claims C6 and C10 — full URL matching -/

theorem pathPartOf_ne_nil_of_pattern_ne_nil {pattern : Str}
    (hpp : pathPartOf pattern ≠ []) : pattern ≠ [] := by
  intro h
  exact hpp (by simp [pathPartOf, h])

theorem isEmpty_eq_false_of_ne_nil {l : Str} (h : l ≠ []) : l.isEmpty = false := by
  cases l with
  | nil => exact absurd rfl h
  | cons a t => rfl

/-- C6: when the pattern carries a path suffix with no `*`, the URL matches
exactly when the host portion matches and the path equals the suffix
literally; when the suffix contains `*`, the suffix is matched as an
expression anchored at both ends in which `*` stands for zero or more
characters and every other character is literal; `example.com/docs`
matches path `/docs` only, not `/docs/x`, while `example.com/docs/*`
matches `/docs/`, `/docs/x`, `/docs/x/y` but not `/doc`. -/
theorem C6_path_match_semantics :
    (∀ pattern host pathname, pathname ≠ [] → pathPartOf pattern ≠ [] →
        (pathPartOf pattern).contains '*' = false →
        (patternMatchesUrl pattern host pathname = true ↔
          (patternMatchesHost (hostPartOf pattern) host = true ∧
            pathname = pathPartOf pattern))) ∧
    (∀ pattern host pathname, pathname ≠ [] → pathPartOf pattern ≠ [] →
        (pathPartOf pattern).contains '*' = true →
        (patternMatchesUrl pattern host pathname = true ↔
          (patternMatchesHost (hostPartOf pattern) host = true ∧
            GlobSpec (pathPartOf pattern) pathname))) ∧
    patternMatchesUrl (str "example.com/docs") (str "example.com") (str "/docs") = true ∧
    patternMatchesUrl (str "example.com/docs") (str "example.com") (str "/docs/x") = false ∧
    patternMatchesUrl (str "example.com/docs/*") (str "example.com") (str "/docs/") = true ∧
    patternMatchesUrl (str "example.com/docs/*") (str "example.com") (str "/docs/x") = true ∧
    patternMatchesUrl (str "example.com/docs/*") (str "example.com") (str "/docs/x/y") = true ∧
    patternMatchesUrl (str "example.com/docs/*") (str "example.com") (str "/doc") = false := by
  refine ⟨?_, ?_, by decide, by decide, by decide, by decide, by decide, by decide⟩
  · intro pattern host pathname hpn hpp hstar
    have hpne : pattern ≠ [] := pathPartOf_ne_nil_of_pattern_ne_nil hpp
    by_cases hhost : host = []
    · subst hhost
      simp [patternMatchesUrl, patternMatchesHost]
    · unfold patternMatchesUrl
      rw [isEmpty_eq_false_of_ne_nil hpne, isEmpty_eq_false_of_ne_nil hhost]
      simp only [Bool.or_self, if_neg Bool.false_ne_true]
      cases hm : patternMatchesHost (hostPartOf pattern) host
      · simp
      · rw [isEmpty_eq_false_of_ne_nil hpp, isEmpty_eq_false_of_ne_nil hpn]
        simp only [Bool.not_true, if_neg Bool.false_ne_true,
          if_neg Bool.false_ne_true, hstar, beq_iff_eq]
        simp [eq_comm]
  · intro pattern host pathname hpn hpp hstar
    have hpne : pattern ≠ [] := pathPartOf_ne_nil_of_pattern_ne_nil hpp
    by_cases hhost : host = []
    · subst hhost
      simp [patternMatchesUrl, patternMatchesHost]
    · unfold patternMatchesUrl
      rw [isEmpty_eq_false_of_ne_nil hpne, isEmpty_eq_false_of_ne_nil hhost]
      simp only [Bool.or_self, if_neg Bool.false_ne_true]
      cases hm : patternMatchesHost (hostPartOf pattern) host
      · simp
      · rw [isEmpty_eq_false_of_ne_nil hpp, isEmpty_eq_false_of_ne_nil hpn]
        simp only [Bool.not_true, if_neg Bool.false_ne_true, hstar, if_pos rfl]
        simp [globMatch_iff_globSpec]

theorem C6_path_match_semantics_witness :
    patternMatchesUrl (str "example.com/docs") (str "example.com") (str "/docs") = true ↔
      (patternMatchesHost (hostPartOf (str "example.com/docs")) (str "example.com") = true ∧
        str "/docs" = pathPartOf (str "example.com/docs")) :=
  C6_path_match_semantics.1 (str "example.com/docs") (str "example.com") (str "/docs")
    (by decide) (by decide) (by decide)

/-- C10: a pattern whose first character is `/` has an empty host portion,
an empty host pattern matches no host, so such a pattern matches no URL at
all. -/
theorem C10_leading_slash_matches_nothing :
    ∀ (rest host pathname : Str),
      patternMatchesUrl ('/' :: rest) host pathname = false := by
  intro rest host pathname
  unfold patternMatchesUrl
  cases hh : host.isEmpty
  · have hhp : hostPartOf ('/' :: rest) = [] := by
      simp [hostPartOf, List.takeWhile_cons, notSlash]
    have hmh : patternMatchesHost (hostPartOf ('/' :: rest)) host = false := by
      rw [hhp]
      simp [patternMatchesHost]
    simp [hh, hmh]
  · simp [hh]

/-! ## RuleStore — grouping-rule schema migration (source: getGroups)

`LegacyRule` models a stored legacy record `{pattern, color, title?}`; a
`pattern` of `none` models a record whose `pattern` field is not a string
(the loop skips it).  `migrateLegacyRules` is the legacy branch of
`getGroups`: a fold over the stored records building the title-keyed
insertion-ordered map `byTitle`. -/

structure LegacyRule where
  pattern : Option Str
  title : Option Str
  color : Option Str
deriving DecidableEq

structure GroupRule where
  title : Str
  color : Str
  patterns : List Str
deriving DecidableEq

def ALLOWED_GROUP_COLORS : List Str :=
  [str "grey", str "blue", str "red", str "yellow", str "green",
   str "pink", str "purple", str "cyan", str "orange"]

def normalizeColor (color : Option Str) : Str :=
  match color with
  | some c => if c ∈ ALLOWED_GROUP_COLORS then c else str "grey"
  | none => str "grey"

def jsTrim (s : Str) : Str :=
  ((s.dropWhile Char.isWhitespace).reverse.dropWhile Char.isWhitespace).reverse

def legacyTitle (r : LegacyRule) (pat : Str) : Str :=
  match r.title with
  | some t => let tt := jsTrim t; if tt.isEmpty then pat else tt
  | none => pat

def insertLegacyRule (acc : List GroupRule) (r : LegacyRule) : List GroupRule :=
  match r.pattern with
  | none => acc
  | some pat =>
    let title := legacyTitle r pat
    let color := normalizeColor r.color
    if acc.any (fun g => g.title = title) then
      acc.map (fun g =>
        if g.title = title then
          { g with
            patterns := if pat ∈ g.patterns then g.patterns else g.patterns ++ [pat]
            color := if g.color = str "grey" ∧ color ≠ str "grey" then color else g.color }
        else g)
    else acc ++ [⟨title, color, [pat]⟩]

def migrateLegacyRules (data : List LegacyRule) : List GroupRule :=
  data.foldl insertLegacyRule []

/-! ## Spec-side description of the migration (for the refinement claim C9)

Modelled from the spec: "legacy records sharing a title merge into one
group whose patterns list is the concatenation of their distinct patterns
in first-seen order", groups appearing in first-seen title order, with the
first-seen non-default color. -/

def legacyTitlesFirstSeen (data : List LegacyRule) : List Str :=
  data.foldl
    (fun ts r =>
      match r.pattern with
      | none => ts
      | some pat => let t := legacyTitle r pat; if t ∈ ts then ts else ts ++ [t])
    []

def legacyPatternsFor (t : Str) (data : List LegacyRule) : List Str :=
  data.foldl
    (fun ps r =>
      match r.pattern with
      | none => ps
      | some pat => if legacyTitle r pat = t ∧ pat ∉ ps then ps ++ [pat] else ps)
    []

def legacyColorFor (t : Str) (data : List LegacyRule) : Str :=
  data.foldl
    (fun c r =>
      match r.pattern with
      | none => c
      | some pat => if legacyTitle r pat = t ∧ c = str "grey" then normalizeColor r.color else c)
    (str "grey")

def specMigrateLegacy (data : List LegacyRule) : List GroupRule :=
  (legacyTitlesFirstSeen data).map
    (fun t => ⟨t, legacyColorFor t data, legacyPatternsFor t data⟩)

theorem migrateLegacyRules_append (xs : List LegacyRule) (r : LegacyRule) :
    migrateLegacyRules (xs ++ [r]) = insertLegacyRule (migrateLegacyRules xs) r := by
  simp [migrateLegacyRules, List.foldl_append]

theorem legacyTitlesFirstSeen_append_none (xs : List LegacyRule) (r : LegacyRule)
    (hr : r.pattern = none) :
    legacyTitlesFirstSeen (xs ++ [r]) = legacyTitlesFirstSeen xs := by
  simp [legacyTitlesFirstSeen, List.foldl_append, hr]

theorem legacyTitlesFirstSeen_append_some (xs : List LegacyRule) (r : LegacyRule)
    (pat : Str) (hr : r.pattern = some pat) :
    legacyTitlesFirstSeen (xs ++ [r]) =
      (if legacyTitle r pat ∈ legacyTitlesFirstSeen xs then legacyTitlesFirstSeen xs
       else legacyTitlesFirstSeen xs ++ [legacyTitle r pat]) := by
  simp [legacyTitlesFirstSeen, List.foldl_append, hr]

theorem legacyPatternsFor_append_none (t : Str) (xs : List LegacyRule) (r : LegacyRule)
    (hr : r.pattern = none) :
    legacyPatternsFor t (xs ++ [r]) = legacyPatternsFor t xs := by
  simp [legacyPatternsFor, List.foldl_append, hr]

theorem legacyPatternsFor_append_some (t : Str) (xs : List LegacyRule) (r : LegacyRule)
    (pat : Str) (hr : r.pattern = some pat) :
    legacyPatternsFor t (xs ++ [r]) =
      (if legacyTitle r pat = t ∧ pat ∉ legacyPatternsFor t xs then
        legacyPatternsFor t xs ++ [pat]
       else legacyPatternsFor t xs) := by
  simp [legacyPatternsFor, List.foldl_append, hr]

theorem legacyColorFor_append_none (t : Str) (xs : List LegacyRule) (r : LegacyRule)
    (hr : r.pattern = none) :
    legacyColorFor t (xs ++ [r]) = legacyColorFor t xs := by
  simp [legacyColorFor, List.foldl_append, hr]

theorem legacyColorFor_append_some (t : Str) (xs : List LegacyRule) (r : LegacyRule)
    (pat : Str) (hr : r.pattern = some pat) :
    legacyColorFor t (xs ++ [r]) =
      (if legacyTitle r pat = t ∧ legacyColorFor t xs = str "grey" then
        normalizeColor r.color
       else legacyColorFor t xs) := by
  simp [legacyColorFor, List.foldl_append, hr]

theorem legacy_not_seen_defaults (t : Str) (data : List LegacyRule)
    (h : t ∉ legacyTitlesFirstSeen data) :
    legacyPatternsFor t data = [] ∧ legacyColorFor t data = str "grey" := by
  induction data using List.reverseRecOn with
  | nil => exact ⟨rfl, rfl⟩
  | append_singleton xs r ih =>
    cases hr : r.pattern with
    | none =>
      rw [legacyTitlesFirstSeen_append_none xs r hr] at h
      rw [legacyPatternsFor_append_none t xs r hr, legacyColorFor_append_none t xs r hr]
      exact ih h
    | some pat =>
      rw [legacyTitlesFirstSeen_append_some xs r pat hr] at h
      have hxs : t ∉ legacyTitlesFirstSeen xs := by
        intro hmem
        apply h
        by_cases hm : legacyTitle r pat ∈ legacyTitlesFirstSeen xs
        · rw [if_pos hm]; exact hmem
        · rw [if_neg hm]; exact List.mem_append_left _ hmem
      have hne : legacyTitle r pat ≠ t := by
        intro heq
        apply h
        by_cases hm : legacyTitle r pat ∈ legacyTitlesFirstSeen xs
        · rw [if_pos hm, ← heq]; exact hm
        · rw [if_neg hm, ← heq]; exact List.mem_append_right _ (by simp)
      rcases ih hxs with ⟨hp, hc⟩
      rw [legacyPatternsFor_append_some t xs r pat hr,
        legacyColorFor_append_some t xs r pat hr]
      constructor
      · rw [if_neg (fun hh => hne hh.1)]; exact hp
      · rw [if_neg (fun hh => hne hh.1)]; exact hc

theorem migrateLegacyRules_eq_spec (data : List LegacyRule) :
    migrateLegacyRules data = specMigrateLegacy data := by
  induction data using List.reverseRecOn with
  | nil => rfl
  | append_singleton xs r ih =>
    rw [migrateLegacyRules_append, ih]
    cases hr : r.pattern with
    | none =>
      have hins : insertLegacyRule (specMigrateLegacy xs) r = specMigrateLegacy xs := by
        simp [insertLegacyRule, hr]
      rw [hins]
      unfold specMigrateLegacy
      rw [legacyTitlesFirstSeen_append_none xs r hr]
      apply List.map_congr_left
      intro t _
      rw [legacyPatternsFor_append_none t xs r hr, legacyColorFor_append_none t xs r hr]
    | some pat =>
      by_cases hm : legacyTitle r pat ∈ legacyTitlesFirstSeen xs
      · have hany : ((specMigrateLegacy xs).any
            (fun g => g.title = legacyTitle r pat)) = true := by
          refine List.any_eq_true.mpr ?_
          refine ⟨⟨legacyTitle r pat, legacyColorFor (legacyTitle r pat) xs,
            legacyPatternsFor (legacyTitle r pat) xs⟩, ?_, by simp⟩
          exact List.mem_map_of_mem _ hm
        have hins : insertLegacyRule (specMigrateLegacy xs) r =
            (specMigrateLegacy xs).map (fun g =>
              if g.title = legacyTitle r pat then
                { g with
                  patterns := if pat ∈ g.patterns then g.patterns else g.patterns ++ [pat]
                  color := if g.color = str "grey" ∧ normalizeColor r.color ≠ str "grey" then
                      normalizeColor r.color
                    else g.color }
              else g) := by
          simp only [insertLegacyRule, hr, hany, if_true]
        rw [hins]
        unfold specMigrateLegacy
        rw [legacyTitlesFirstSeen_append_some xs r pat hr, if_pos hm, List.map_map]
        apply List.map_congr_left
        intro t _
        simp only [Function.comp_apply]
        by_cases ht : t = legacyTitle r pat
        · rw [if_pos ht]
          have hpats : (if pat ∈ legacyPatternsFor t xs then legacyPatternsFor t xs
              else legacyPatternsFor t xs ++ [pat]) = legacyPatternsFor t (xs ++ [r]) := by
            rw [legacyPatternsFor_append_some t xs r pat hr]
            by_cases hpm : pat ∈ legacyPatternsFor t xs
            · rw [if_pos hpm, if_neg (fun hh => hh.2 hpm)]
            · rw [if_neg hpm, if_pos ⟨ht.symm, hpm⟩]
          have hcol : (if legacyColorFor t xs = str "grey" ∧
                normalizeColor r.color ≠ str "grey" then normalizeColor r.color
              else legacyColorFor t xs) = legacyColorFor t (xs ++ [r]) := by
            rw [legacyColorFor_append_some t xs r pat hr]
            by_cases hcg : legacyColorFor t xs = str "grey"
            · by_cases hng : normalizeColor r.color = str "grey"
              · rw [if_neg (fun hh => hh.2 hng), if_pos ⟨ht.symm, hcg⟩, hcg, hng]
              · rw [if_pos ⟨hcg, hng⟩, if_pos ⟨ht.symm, hcg⟩]
            · rw [if_neg (fun hh => hcg hh.1), if_neg (fun hh => hcg hh.2)]
          simp [hpats, hcol]
        · rw [if_neg ht]
          rw [legacyPatternsFor_append_some t xs r pat hr,
            legacyColorFor_append_some t xs r pat hr,
            if_neg (fun hh => ht hh.1.symm), if_neg (fun hh => ht hh.1.symm)]
      · have hany : ((specMigrateLegacy xs).any
            (fun g => g.title = legacyTitle r pat)) = false := by
          simp only [List.any_eq_false, decide_eq_true_eq]
          intro g hg
          rcases List.mem_map.mp hg with ⟨t, htmem, rfl⟩
          exact fun hEq => hm (hEq ▸ htmem)
        have hins : insertLegacyRule (specMigrateLegacy xs) r =
            specMigrateLegacy xs ++
              [⟨legacyTitle r pat, normalizeColor r.color, [pat]⟩] := by
          simp only [insertLegacyRule, hr, hany, Bool.false_eq_true, if_false]
        rw [hins]
        unfold specMigrateLegacy
        rw [legacyTitlesFirstSeen_append_some xs r pat hr, if_neg hm, List.map_append]
        congr 1
        · apply List.map_congr_left
          intro t htmem
          have ht : t ≠ legacyTitle r pat := fun hEq => hm (hEq ▸ htmem)
          rw [legacyPatternsFor_append_some t xs r pat hr,
            legacyColorFor_append_some t xs r pat hr,
            if_neg (fun hh => ht hh.1.symm), if_neg (fun hh => ht hh.1.symm)]
        · rcases legacy_not_seen_defaults (legacyTitle r pat) xs hm with ⟨hp0, hc0⟩
          simp only [List.map_cons, List.map_nil]
          rw [legacyPatternsFor_append_some _ xs r pat hr,
            legacyColorFor_append_some _ xs r pat hr, hp0, hc0,
            if_pos ⟨rfl, rfl⟩, if_pos ⟨rfl, List.not_mem_nil pat⟩]
          simp

/-- C9: reading a legacy rule collection migrates it to the current
schema: legacy records sharing a title merge into one group whose
patterns list is the concatenation of their distinct patterns in
first-seen order (first-seen non-default color, groups in first-seen
title order), a record without a valid color yields color grey, and the
spec's example `[{pattern:"a.com",title:"A"},{pattern:"b.a.com",title:"A"}]`
migrates to the single group `{title:"A",patterns:["a.com","b.a.com"],color:"grey"}`. -/
theorem C9_legacy_migration :
    (∀ data : List LegacyRule, migrateLegacyRules data = specMigrateLegacy data) ∧
    migrateLegacyRules
        [⟨some (str "a.com"), some (str "A"), none⟩,
         ⟨some (str "b.a.com"), some (str "A"), none⟩] =
      [⟨str "A", str "grey", [str "a.com", str "b.a.com"]⟩] ∧
    (∀ c, c ∉ ALLOWED_GROUP_COLORS → normalizeColor (some c) = str "grey") ∧
    normalizeColor none = str "grey" :=
  ⟨migrateLegacyRules_eq_spec, by decide,
    fun c hc => by simp [normalizeColor, hc], rfl⟩

theorem C9_legacy_migration_witness :
    normalizeColor (some (str "magenta")) = str "grey" :=
  C9_legacy_migration.2.2.1 (str "magenta") (by decide)

/-! ## GroupAssigner — processTab (source: background script)

A tab is modelled by the fields the code reads: `host`/`path` are the
results of `getHostFromUrl`/`getPathFromUrl` on `tab.url || tab.pendingUrl`
(`none` = no host-resolvable http(s) URL), `groupId = none` models
`TAB_GROUP_ID_NONE`.  `groupTitleOf` models `chrome.tabGroups.get`
(`none` = the group no longer exists, i.e. the call throws and the catch
swallows it).  `processTab` returns the membership effect the code
requests for the tab. -/

structure TabInfo where
  id : Nat
  pinned : Bool
  groupId : Option Nat
  host : Option Str
  path : Option Str
deriving DecidableEq

def findMatchingGroupAux (host pathname : Str) : List GroupRule → Option (Str × Str)
  | [] => none
  | g :: gs =>
    if ¬ g.title.isEmpty ∧ g.patterns.any (fun p => patternMatchesUrl p host pathname) then
      some (g.title, normalizeColor (some g.color))
    else findMatchingGroupAux host pathname gs

def findMatchingGroup (host pathname : Str) (groups : List GroupRule) :
    Option (Str × Str) :=
  if host.isEmpty then none else findMatchingGroupAux host pathname groups

inductive TabEffect where
  | noop
  | assignToGroup (title color : Str)
  | ungroup
deriving DecidableEq

def processTab (tab : TabInfo) (groups : List GroupRule)
    (groupTitleOf : Nat → Option Str) : TabEffect :=
  if tab.pinned then TabEffect.noop
  else
    let mtch :=
      match tab.host with
      | some h => findMatchingGroup h (tab.path.getD (str "/")) groups
      | none => none
    match mtch with
    | some (title, color) => TabEffect.assignToGroup title color
    | none =>
      match tab.groupId with
      | none => TabEffect.noop
      | some gid =>
        match groupTitleOf gid with
        | none => TabEffect.noop
        | some gt =>
          if gt ∈ groups.map (fun g => g.title) then TabEffect.ungroup
          else TabEffect.noop

/-- C7 counterexample: a pinned tab sitting in a group whose title "A" is a
known grouping-rule title is left alone by processTab (the pinned check
returns before any ungrouping), contradicting "if that tab currently
belongs to a group whose title equals some known grouping-rule title,
reconcileTab ungroups it". -/
theorem C7_counterexample :
    processTab ⟨1, true, some 5, none, none⟩
        [⟨str "A", str "grey", [str "a.com"]⟩]
        (fun gid => if gid = 5 then some (str "A") else none) = TabEffect.noop ∧
    TabEffect.noop ≠ TabEffect.ungroup := by
  exact ⟨rfl, by decide⟩

/-- C7 (amended): pinned tabs are skipped entirely (never ungrouped, no
rule evaluation); an unpinned tab lacking a host-resolvable http(s) URL
skips rule evaluation but is ungrouped exactly when it belongs to a group
whose title is a known grouping-rule title; tabs in groups whose title
corresponds to no rule, or in no group, are left unchanged. -/
theorem C7_excluded_tab_handling :
    (∀ (tab : TabInfo) groups f, tab.pinned = true →
        processTab tab groups f = TabEffect.noop) ∧
    (∀ (tab : TabInfo) groups f gid gt, tab.pinned = false → tab.host = none →
        tab.groupId = some gid → f gid = some gt →
        gt ∈ groups.map (fun g => g.title) →
        processTab tab groups f = TabEffect.ungroup) ∧
    (∀ (tab : TabInfo) groups f gid gt, tab.pinned = false → tab.host = none →
        tab.groupId = some gid → f gid = some gt →
        gt ∉ groups.map (fun g => g.title) →
        processTab tab groups f = TabEffect.noop) ∧
    (∀ (tab : TabInfo) groups f, tab.pinned = false → tab.host = none →
        tab.groupId = none → processTab tab groups f = TabEffect.noop) := by
  refine ⟨?_, ?_, ?_, ?_⟩
  · intro tab groups f hp
    simp [processTab, hp]
  · intro tab groups f gid gt hp hh hg hf hmem
    simp [processTab, hp, hh, hg, hf, hmem]
  · intro tab groups f gid gt hp hh hg hf hmem
    simp [processTab, hp, hh, hg, hf, hmem]
  · intro tab groups f hp hh hg
    simp [processTab, hp, hh, hg]

theorem C7_excluded_tab_handling_witness :
    processTab ⟨2, false, some 5, none, none⟩
        [⟨str "A", str "grey", [str "a.com"]⟩]
        (fun gid => if gid = 5 then some (str "A") else none) = TabEffect.ungroup :=
  C7_excluded_tab_handling.2.1 ⟨2, false, some 5, none, none⟩
    [⟨str "A", str "grey", [str "a.com"]⟩]
    (fun gid => if gid = 5 then some (str "A") else none) 5 (str "A")
    rfl rfl rfl rfl (by decide)

/-! ## AutoCloseScheduler (source: getAutoCloseRules, maybeScheduleAutoClose)

`RawAutoClose` models a stored `autoClosePatterns` entry: a legacy bare
string, or an object whose `pattern` may fail the string check
(`pattern = none`) and whose delay may be missing/NaN (`delay = none`).
The schedule decision returns the timeout in milliseconds the code passes
to `setTimeout`; the fire decision re-evaluates against the re-fetched
tab (`none` = `chrome.tabs.get` threw) and the freshly loaded rules. -/

structure AutoCloseRule where
  pattern : Str
  delaySeconds : Nat
deriving DecidableEq

inductive RawAutoClose where
  | strEntry (s : Str)
  | objEntry (pattern : Option Str) (delay : Option Int)
deriving DecidableEq

def normalizeAutoCloseEntry : RawAutoClose → Option AutoCloseRule
  | RawAutoClose.strEntry s =>
    let p := jsTrim s
    if p.isEmpty then none else some ⟨p, 1⟩
  | RawAutoClose.objEntry pat d =>
    match pat with
    | none => none
    | some ps =>
      let d0 : Int := match d with | none => 1 | some x => x
      let d1 : Int := min 10 (max 1 d0)
      let p := jsTrim ps
      if p.isEmpty then none else some ⟨p, d1.toNat⟩

def getAutoCloseRules (raw : List RawAutoClose) : List AutoCloseRule :=
  raw.filterMap normalizeAutoCloseEntry

def delayMsOf (d : Nat) : Nat := max 1000 ((if d = 0 then 1 else d) * 1000)

def maybeScheduleAutoClose (tab : TabInfo) (rules : List AutoCloseRule) : Option Nat :=
  if tab.pinned then none
  else
    match tab.host with
    | none => none
    | some h =>
      if rules.isEmpty then none
      else
        match rules.find?
            (fun r => patternMatchesUrl r.pattern h (tab.path.getD (str "/"))) with
        | none => none
        | some r => some (delayMsOf r.delaySeconds)

def autoCloseFireDecision (fresh : Option TabInfo) (latest : List AutoCloseRule) : Bool :=
  match fresh with
  | none => false
  | some t =>
    if t.pinned then false
    else
      match t.host with
      | none => false
      | some h =>
        (latest.find?
          (fun r => patternMatchesUrl r.pattern h (t.path.getD (str "/")))).isSome

def autoCloseRemovalTime (t0 : Nat) (tab : TabInfo)
    (rulesAtSchedule : List AutoCloseRule) (freshAtFire : Option TabInfo)
    (rulesAtFire : List AutoCloseRule) : Option Nat :=
  match maybeScheduleAutoClose tab rulesAtSchedule with
  | none => none
  | some delayMs =>
    if autoCloseFireDecision freshAtFire rulesAtFire then some (t0 + delayMs) else none

theorem getAutoCloseRules_delay_bounds (raw : List RawAutoClose) (r : AutoCloseRule)
    (hr : r ∈ getAutoCloseRules raw) : 1 ≤ r.delaySeconds ∧ r.delaySeconds ≤ 10 := by
  rcases List.mem_filterMap.mp hr with ⟨e, _, he⟩
  cases e with
  | strEntry s =>
    simp only [normalizeAutoCloseEntry] at he
    by_cases hp : (jsTrim s).isEmpty
    · simp [hp] at he
    · rw [if_neg hp] at he
      cases he
      refine ⟨?_, ?_⟩ <;> dsimp only <;> omega
  | objEntry pat d =>
    cases pat with
    | none => simp [normalizeAutoCloseEntry] at he
    | some ps =>
      rcases d with _ | x
      · simp only [normalizeAutoCloseEntry] at he
        by_cases hp : (jsTrim ps).isEmpty
        · simp [hp] at he
        · rw [if_neg hp] at he
          cases he
          refine ⟨?_, ?_⟩ <;> dsimp only <;> decide
      · simp only [normalizeAutoCloseEntry] at he
        by_cases hp : (jsTrim ps).isEmpty
        · simp [hp] at he
        · rw [if_neg hp] at he
          cases he
          have hlo : (1 : Int) ≤ min 10 (max 1 x) := le_min (by norm_num) (le_max_left 1 x)
          have hhi : min 10 (max 1 x) ≤ (10 : Int) := min_le_left _ _
          refine ⟨?_, ?_⟩ <;> dsimp only <;> omega

theorem delayMsOf_ge (d : Nat) : delayMsOf d ≥ (max 1 d) * 1000 := by
  unfold delayMsOf
  by_cases h0 : d = 0
  · subst h0
    simp
  · rw [if_neg h0]
    omega

/-- C8: normalized auto-close rules carry delays in [1,10]; a scheduled
close always uses the timeout delayMsOf d = max(1000, d*1000) ≥
max(1,d)*1000 milliseconds taken from the first matching rule at schedule
time, and a removal happens exactly that delay after scheduling; at fire
time the decision is re-evaluated against the re-fetched tab and the
freshly loaded rules, so a vanished tab, a now-pinned tab, a cleared rule
set, or a tab whose current URL matches no current rule is never
removed. -/
theorem C8_auto_close_semantics :
    (∀ raw r, r ∈ getAutoCloseRules raw → 1 ≤ r.delaySeconds ∧ r.delaySeconds ≤ 10) ∧
    (∀ tab rules dms, maybeScheduleAutoClose tab rules = some dms →
        ∃ h r, tab.host = some h ∧
          rules.find?
            (fun r => patternMatchesUrl r.pattern h (tab.path.getD (str "/"))) = some r ∧
          dms = delayMsOf r.delaySeconds ∧ (max 1 r.delaySeconds) * 1000 ≤ dms) ∧
    (∀ t0 tab rs fresh rl T, autoCloseRemovalTime t0 tab rs fresh rl = some T →
        autoCloseFireDecision fresh rl = true ∧
        ∃ dms, maybeScheduleAutoClose tab rs = some dms ∧ T = t0 + dms) ∧
    (∀ latest, autoCloseFireDecision none latest = false) ∧
    (∀ t latest, t.pinned = true → autoCloseFireDecision (some t) latest = false) ∧
    (∀ fresh, autoCloseFireDecision fresh [] = false) ∧
    (∀ t h latest, t.pinned = false → t.host = some h →
        (∀ r ∈ latest, patternMatchesUrl r.pattern h (t.path.getD (str "/")) = false) →
        autoCloseFireDecision (some t) latest = false) := by
  refine ⟨getAutoCloseRules_delay_bounds, ?_, ?_, ?_, ?_, ?_, ?_⟩
  · intro tab rules dms h
    cases hp : tab.pinned with
    | true => simp [maybeScheduleAutoClose, hp] at h
    | false =>
      cases hh : tab.host with
      | none => simp [maybeScheduleAutoClose, hp, hh] at h
      | some hst =>
        cases he : rules.isEmpty with
        | true => simp [maybeScheduleAutoClose, hp, hh, he] at h
        | false =>
          cases hf : rules.find?
              (fun r => patternMatchesUrl r.pattern hst (tab.path.getD (str "/"))) with
          | none => simp [maybeScheduleAutoClose, hp, hh, he, hf] at h
          | some r =>
            simp only [maybeScheduleAutoClose, hp, hh, he, hf,
              Bool.false_eq_true, if_false, Option.some.injEq] at h
            refine ⟨hst, r, rfl, hf, h.symm, ?_⟩
            have hd := delayMsOf_ge r.delaySeconds
            omega
  · intro t0 tab rs fresh rl T h
    cases hs : maybeScheduleAutoClose tab rs with
    | none => simp [autoCloseRemovalTime, hs] at h
    | some dms =>
      cases hf : autoCloseFireDecision fresh rl with
      | false => simp [autoCloseRemovalTime, hs, hf] at h
      | true =>
        simp only [autoCloseRemovalTime, hs, hf, if_true, Option.some.injEq] at h
        exact ⟨rfl, dms, rfl, h.symm⟩
  · intro latest
    rfl
  · intro t latest hp
    simp [autoCloseFireDecision, hp]
  · intro fresh
    cases fresh with
    | none => rfl
    | some t =>
      by_cases hp : t.pinned = true
      · simp [autoCloseFireDecision, hp]
      · cases hh : t.host with
        | none => simp [autoCloseFireDecision, hp, hh]
        | some hst => simp [autoCloseFireDecision, hp, hh]
  · intro t h latest hp hh hnone
    have hfind : latest.find?
        (fun r => patternMatchesUrl r.pattern h (t.path.getD (str "/"))) = none := by
      rw [List.find?_eq_none]
      intro r hr
      simp [hnone r hr]
    simp [autoCloseFireDecision, hp, hh, hfind]

theorem C8_auto_close_semantics_witness :
    ∃ h r, (TabInfo.mk 1 false none (some (str "news.ycombinator.com")) (some (str "/"))).host = some h ∧
      ([⟨str "news.ycombinator.com", 3⟩] : List AutoCloseRule).find?
        (fun r => patternMatchesUrl r.pattern h
          ((TabInfo.mk 1 false none (some (str "news.ycombinator.com")) (some (str "/"))).path.getD (str "/"))) = some r ∧
      3000 = delayMsOf r.delaySeconds ∧ (max 1 r.delaySeconds) * 1000 ≤ 3000 :=
  C8_auto_close_semantics.2.1
    (TabInfo.mk 1 false none (some (str "news.ycombinator.com")) (some (str "/")))
    [⟨str "news.ycombinator.com", 3⟩] 3000 (by decide)

/-! ## WindowReconciler scheduling (source: scheduleOrganizeWindow and the
organizeWindow re-entrancy guard)

Per-window labeled transition system.  `pendingTimers` counts live
debounce timers for the window (`organizeTimers` holds at most one entry;
`scheduleOrganizeWindow` clears any existing timer before setting the
new one, so a request leaves exactly one pending timer).  `organizing`
is `organizingWindows.has(windowId)`; `running` counts organizeWindow
passes currently between the guard check and the `finally` block.  The
guard check plus `add` run with no intervening await, hence one atomic
`timerFire` step.  The step function returns the successor state and
whether a reconciliation pass started. -/

structure SchedulerState where
  pendingTimers : Nat
  organizing : Bool
  running : Nat
deriving DecidableEq

inductive SchedulerEvent where
  | request
  | timerFire
  | runFinish
deriving DecidableEq

def schedInit : SchedulerState := ⟨0, false, 0⟩

def schedStep : SchedulerState → SchedulerEvent → SchedulerState × Bool
  | s, SchedulerEvent.request => (⟨1, s.organizing, s.running⟩, false)
  | s, SchedulerEvent.timerFire =>
    if s.organizing then (⟨s.pendingTimers - 1, s.organizing, s.running⟩, false)
    else (⟨s.pendingTimers - 1, true, s.running + 1⟩, true)
  | s, SchedulerEvent.runFinish => (⟨s.pendingTimers, false, s.running - 1⟩, false)

def schedRun : SchedulerState → List SchedulerEvent → SchedulerState × Nat
  | s, [] => (s, 0)
  | s, e :: es =>
    let p := schedStep s e
    let q := schedRun p.1 es
    (q.1, (if p.2 then 1 else 0) + q.2)

def SchedInv (s : SchedulerState) : Prop :=
  s.pendingTimers ≤ 1 ∧ s.running ≤ 1 ∧ (s.organizing = true ↔ s.running = 1)

theorem schedStep_inv (s : SchedulerState) (e : SchedulerEvent)
    (h : SchedInv s) : SchedInv (schedStep s e).1 := by
  obtain ⟨h1, h2, h3⟩ := h
  cases e with
  | request =>
    simp only [schedStep, SchedInv]
    exact ⟨le_refl 1, h2, h3⟩
  | timerFire =>
    cases ho : s.organizing with
    | true =>
      rw [ho] at h3
      simp only [schedStep, ho, if_true, SchedInv]
      exact ⟨by omega, h2, ⟨fun _ => h3.mp rfl, fun _ => trivial⟩⟩
    | false =>
      rw [ho] at h3
      have hr0 : s.running = 0 := by
        rcases Nat.eq_zero_or_pos s.running with hz | hpos
        · exact hz
        · exfalso
          have : s.running = 1 := by omega
          have hcontra := h3.mpr this
          simp at hcontra
      simp only [schedStep, ho, Bool.false_eq_true, if_false, SchedInv]
      exact ⟨by omega, by omega, by simp [hr0]⟩
  | runFinish =>
    simp only [schedStep, SchedInv]
    refine ⟨h1, by omega, ?_⟩
    constructor
    · intro hfalse
      exact absurd hfalse (by simp)
    · intro hr
      exfalso
      omega

theorem schedRun_inv (es : List SchedulerEvent) (s : SchedulerState)
    (h : SchedInv s) : SchedInv (schedRun s es).1 := by
  induction es generalizing s with
  | nil => exact h
  | cons e es ih => exact ih _ (schedStep_inv s e h)

theorem schedRun_append_fst (s : SchedulerState) (es1 es2 : List SchedulerEvent) :
    (schedRun s (es1 ++ es2)).1 = (schedRun (schedRun s es1).1 es2).1 := by
  induction es1 generalizing s with
  | nil => simp [schedRun]
  | cons e es ih => simp only [List.cons_append, schedRun, List.append_eq, ih]

theorem schedRun_append_snd (s : SchedulerState) (es1 es2 : List SchedulerEvent) :
    (schedRun s (es1 ++ es2)).2 =
      (schedRun s es1).2 + (schedRun (schedRun s es1).1 es2).2 := by
  induction es1 generalizing s with
  | nil => simp [schedRun]
  | cons e es ih =>
    simp only [List.cons_append, schedRun, List.append_eq, ih]
    omega

theorem schedRun_requests (s : SchedulerState) (K : Nat) (hK : 1 ≤ K) :
    (schedRun s (List.replicate K SchedulerEvent.request)).1 =
      ⟨1, s.organizing, s.running⟩ ∧
    (schedRun s (List.replicate K SchedulerEvent.request)).2 = 0 := by
  induction K generalizing s with
  | zero => omega
  | succ n ih =>
    rcases Nat.eq_zero_or_pos n with hz | hpos
    · subst hz
      simp [schedRun, schedStep, List.replicate]
    · have hstep := ih (⟨1, s.organizing, s.running⟩ : SchedulerState) hpos
      simp only [List.replicate, schedRun, schedStep]
      refine ⟨hstep.1, ?_⟩
      simp [hstep.2]

/-- C4: for one window, at most one reconciliation pass runs at a time —
the invariant running ≤ 1 (with the organizing flag tracking it) is
preserved by every event from the initial state; a request never starts a
pass directly; a timer fire while a pass is running starts no pass (the
re-entrancy flag drops it); a burst of K ≥ 1 requests leaves exactly one
pending debounce timer (each request replaces the previous timer) and
starts zero passes, and the burst followed by its single timer fire
starts at most one pass. -/
theorem C4_single_reconciliation_pass :
    SchedInv schedInit ∧
    (∀ s es, SchedInv s → SchedInv (schedRun s es).1) ∧
    (∀ s, (schedStep s SchedulerEvent.request).2 = false) ∧
    (∀ s, s.organizing = true → (schedStep s SchedulerEvent.timerFire).2 = false) ∧
    (∀ s K, 1 ≤ K →
        (schedRun s (List.replicate K SchedulerEvent.request)).1.pendingTimers = 1 ∧
        (schedRun s (List.replicate K SchedulerEvent.request)).2 = 0) ∧
    (∀ s K, 1 ≤ K →
        (schedRun s (List.replicate K SchedulerEvent.request ++
          [SchedulerEvent.timerFire])).2 ≤ 1) := by
  refine ⟨⟨by simp [schedInit], by simp [schedInit], by simp [schedInit]⟩,
    fun s es h => schedRun_inv es s h, fun s => rfl, ?_, ?_, ?_⟩
  · intro s ho
    simp [schedStep, ho]
  · intro s K hK
    obtain ⟨h1, h2⟩ := schedRun_requests s K hK
    exact ⟨by rw [h1], h2⟩
  · intro s K hK
    rw [schedRun_append_snd]
    obtain ⟨h1, h2⟩ := schedRun_requests s K hK
    rw [h2, h1]
    have : ∀ t : SchedulerState, (schedRun t [SchedulerEvent.timerFire]).2 ≤ 1 := by
      intro t
      simp only [schedRun]
      by_cases ho : t.organizing = true
      · simp [schedStep, ho]
      · have ho' : t.organizing = false := by
          cases hb : t.organizing
          · rfl
          · exact absurd hb ho
        simp [schedStep, ho']
    exact Nat.zero_add _ ▸ this _

theorem C4_single_reconciliation_pass_witness :
    (schedStep ⟨1, true, 1⟩ SchedulerEvent.timerFire).2 = false :=
  C4_single_reconciliation_pass.2.2.2.1 ⟨1, true, 1⟩ rfl

/-! ## Deduplicator (source: dedupeGroups)

A window snapshot holds the tabs (only id and group membership matter
here) and the groups.  `dedupeGroups` first guards on a falsy title
(`if (windowId == null || !title) return;` — the windowId half is outside
the single-window model), then queries the same-title groups,
sorts them by ascending id (JavaScript sort with comparator
`(a,b) => a.id - b.id`, stable — modelled by insertion sort), takes the
first as primary, re-assigns every tab of the remaining groups to the
primary (`chrome.tabs.group`), and updates the primary's title and, when
supplied, color.  A group whose tabs all left is garbage-collected by
the host, so the emptied non-primary groups disappear from the
snapshot. -/

structure GTab where
  id : Nat
  groupId : Option Nat
deriving DecidableEq

structure TabGroup where
  id : Nat
  title : Str
  color : Str
deriving DecidableEq

structure WindowState where
  tabs : List GTab
  groups : List TabGroup
deriving DecidableEq

def mergeInto (title : Str) (color : Option Str) (primary : TabGroup)
    (rest : List TabGroup) (w : WindowState) : WindowState :=
  let restIds := rest.map (fun g => g.id)
  let tabs2 := w.tabs.map (fun t =>
    match t.groupId with
    | some gid => if gid ∈ restIds then { t with groupId := some primary.id } else t
    | none => t)
  let groups2 := (w.groups.filter (fun g => g.id ∉ restIds)).map
    (fun g => if g.id = primary.id then
        { g with title := title, color := color.getD g.color } else g)
  ⟨tabs2, groups2⟩

def dedupeGroups (title : Str) (color : Option Str) (w : WindowState) : WindowState :=
  if title = [] then w
  else
    let sameTitle := w.groups.filter (fun g => g.title = title)
    if sameTitle.length ≤ 1 then w
    else
      match List.insertionSort (fun a b => a.id ≤ b.id) sameTitle with
      | [] => w
      | primary :: rest => mergeInto title color primary rest w

def wfWindow (w : WindowState) : Prop :=
  (w.groups.map (fun g => g.id)).Nodup ∧
  ∀ g ∈ w.groups, ∃ t ∈ w.tabs, t.groupId = some g.id

theorem filter_eq_singleton_of_nodup_map {α β : Type} [DecidableEq β] (f : α → β)
    (l : List α) (hn : (l.map f).Nodup) (a : α) (ha : a ∈ l) :
    l.filter (fun b => f b = f a) = [a] := by
  induction l with
  | nil => cases ha
  | cons x xs ih =>
    simp only [List.map_cons, List.nodup_cons] at hn
    rcases List.mem_cons.mp ha with rfl | haxs
    · have hrest : xs.filter (fun b => f b = f a) = [] := by
        rw [List.filter_eq_nil_iff]
        intro b hb
        simp only [decide_eq_true_eq]
        intro hEq
        exact hn.1 (hEq ▸ List.mem_map_of_mem f hb)
      simp [List.filter_cons, hrest]
    · have hfx : f x ≠ f a := by
        intro hEq
        exact hn.1 (hEq ▸ List.mem_map_of_mem f haxs)
      simp only [List.filter_cons, decide_eq_true_eq, if_neg hfx]
      exact ih hn.2 haxs

theorem filter_map_comm {α β : Type} (f : α → β) (p : β → Bool) (q : α → Bool)
    (l : List α) (h : ∀ a ∈ l, p (f a) = q a) :
    (l.map f).filter p = (l.filter q).map f := by
  induction l with
  | nil => rfl
  | cons a as ih =>
    have ha := h a (List.mem_cons_self a as)
    have hrest : ∀ b ∈ as, p (f b) = q b := fun b hb => h b (List.mem_cons_of_mem a hb)
    cases hq : q a with
    | true =>
      rw [List.map_cons, List.filter_cons, List.filter_cons]
      rw [hq] at ha
      simp only [ha, hq, if_true]
      rw [List.map_cons, ih hrest]
    | false =>
      rw [List.map_cons, List.filter_cons, List.filter_cons]
      rw [hq] at ha
      simp only [ha, hq, Bool.false_eq_true, if_false]
      exact ih hrest

theorem mergeInto_spec (w : WindowState) (title : Str) (color : Option Str)
    (primary : TabGroup) (rest : List TabGroup)
    (hw : (w.groups.map (fun g => g.id)).Nodup)
    (hps : List.insertionSort (fun a b : TabGroup => a.id ≤ b.id)
      (w.groups.filter (fun g => g.title = title)) = primary :: rest) :
    ((mergeInto title color primary rest w).groups.filter
        (fun g => g.title = title)) =
      [{ primary with title := title, color := color.getD primary.color }] ∧
    primary.id ∈ (w.groups.filter (fun g => g.title = title)).map (fun g => g.id) ∧
    (∀ i ∈ (w.groups.filter (fun g => g.title = title)).map (fun g => g.id),
        primary.id ≤ i) ∧
    ((mergeInto title color primary rest w).tabs.filter
        (fun t => t.groupId = some primary.id)).map (fun t => t.id) =
      (w.tabs.filter
        (fun (t : GTab) => decide (∃ g ∈ w.groups.filter
            (fun (g2 : TabGroup) => g2.title = title),
          t.groupId = some g.id))).map (fun t => t.id) := by
  haveI : IsTotal TabGroup (fun a b => a.id ≤ b.id) :=
    ⟨fun a b => Nat.le_total a.id b.id⟩
  haveI : IsTrans TabGroup (fun a b => a.id ≤ b.id) :=
    ⟨fun a b c h1 h2 => Nat.le_trans h1 h2⟩
  have hperm : (primary :: rest).Perm
      (w.groups.filter (fun g => g.title = title)) :=
    hps ▸ List.perm_insertionSort _ _
  have hmemS : ∀ g : TabGroup,
      g ∈ (w.groups.filter (fun g2 => g2.title = title)) ↔
        g = primary ∨ g ∈ rest := by
    intro g
    rw [← hperm.mem_iff, List.mem_cons]
  have hprimS : primary ∈ w.groups.filter (fun g2 => g2.title = title) :=
    (hmemS primary).mpr (Or.inl rfl)
  have hprimG : primary ∈ w.groups := List.mem_of_mem_filter hprimS
  have hSids : ((w.groups.filter (fun g => g.title = title)).map
      (fun g => g.id)).Nodup := by
    have hsub : (w.groups.filter (fun g => g.title = title)).Sublist w.groups :=
      List.filter_sublist w.groups
    exact hw.sublist (hsub.map (fun g => g.id))
  have hsortedIds : ((primary :: rest).map (fun g => g.id)).Nodup :=
    (hperm.map (fun g => g.id)).nodup_iff.mpr hSids
  have hprimNotRest : primary.id ∉ rest.map (fun g => g.id) := by
    simp only [List.map_cons, List.nodup_cons] at hsortedIds
    exact hsortedIds.1
  have hsorted : List.Sorted (fun a b : TabGroup => a.id ≤ b.id)
      (primary :: rest) := by
    have hs := List.sorted_insertionSort (fun a b : TabGroup => a.id ≤ b.id)
      (w.groups.filter (fun g => g.title = title))
    rwa [hps] at hs
  have hmin : ∀ i ∈ (w.groups.filter (fun g => g.title = title)).map
      (fun g => g.id), primary.id ≤ i := by
    intro i hi
    rcases List.mem_map.mp hi with ⟨g, hg, rfl⟩
    rcases (hmemS g).mp hg with rfl | hgr
    · exact le_refl _
    · exact List.rel_of_sorted_cons hsorted g hgr
  have hIdCases : ∀ gid : Nat,
      gid ∈ (w.groups.filter (fun g => g.title = title)).map (fun g => g.id) ↔
        (gid = primary.id ∨ gid ∈ rest.map (fun g => g.id)) := by
    intro gid
    rw [← (hperm.map (fun g => g.id)).mem_iff, List.map_cons, List.mem_cons]
  refine ⟨?_, List.mem_map_of_mem _ hprimS, hmin, ?_⟩
  · have hfilter1 : ((mergeInto title color primary rest w).groups).filter
        (fun g => g.title = title) =
        ((w.groups.filter (fun g => g.id ∉ rest.map (fun g2 => g2.id))).filter
          (fun g => g.id = primary.id)).map
          (fun g => if g.id = primary.id then
            { g with title := title, color := color.getD g.color } else g) := by
      apply filter_map_comm
      intro g hg
      have hgnr : g.id ∉ rest.map (fun g2 => g2.id) := by
        have hh := (List.mem_filter.mp hg).2
        simpa using hh
      by_cases hid : g.id = primary.id
      · simp [hid]
      · rw [if_neg hid]
        have hnt : ¬ g.title = title := by
          intro htitle
          have hgS : g ∈ w.groups.filter (fun g2 => g2.title = title) :=
            List.mem_filter.mpr ⟨List.mem_of_mem_filter hg, by simp [htitle]⟩
          rcases (hmemS g).mp hgS with rfl | hgr
          · exact hid rfl
          · exact hgnr (List.mem_map_of_mem _ hgr)
        simp [hnt, hid]
    have hfilter2 : (w.groups.filter
        (fun g => g.id ∉ rest.map (fun g2 => g2.id))).filter
        (fun g => g.id = primary.id) = [primary] := by
      rw [List.filter_filter]
      have hcongr : ∀ g ∈ w.groups,
          (decide (g.id = primary.id) &&
            decide (g.id ∉ rest.map (fun g2 => g2.id))) =
          decide (g.id = primary.id) := by
        intro g _
        by_cases hid : g.id = primary.id
        · simp [hid, hprimNotRest]
        · simp [hid]
      rw [List.filter_congr hcongr]
      exact filter_eq_singleton_of_nodup_map (fun g => g.id) w.groups hw primary hprimG
    rw [hfilter1, hfilter2, List.map_cons, List.map_nil, if_pos rfl]
  · have hft : ((mergeInto title color primary rest w).tabs).filter
        (fun t => t.groupId = some primary.id) =
        (w.tabs.filter
          (fun (t : GTab) => decide (∃ g ∈ w.groups.filter
              (fun (g2 : TabGroup) => g2.title = title),
            t.groupId = some g.id))).map
          (fun t =>
            match t.groupId with
            | some gid => if gid ∈ rest.map (fun g => g.id) then
                { t with groupId := some primary.id } else t
            | none => t) := by
      apply filter_map_comm
      intro t _
      cases ht : t.groupId with
      | none =>
        have hnex : ¬ ∃ g ∈ w.groups.filter (fun g2 => g2.title = title),
            t.groupId = some g.id := by
          rintro ⟨g, _, hEq⟩
          rw [ht] at hEq
          cases hEq
        simp [ht, hnex]
      | some gid =>
        by_cases hr : gid ∈ rest.map (fun g => g.id)
        · rcases List.mem_map.mp hr with ⟨g0, hg0, hgid⟩
          have hg0S := (hmemS g0).mpr (Or.inr hg0)
          simp [ht, hr]
          exact ⟨g0, ⟨(List.mem_filter.mp hg0S).1,
            by simpa using (List.mem_filter.mp hg0S).2⟩, hgid.symm⟩
        · by_cases hp : gid = primary.id
          · have hcond : ¬ ∃ a ∈ rest, a.id = primary.id := by
              rintro ⟨a, ha, haid⟩
              have hmem : a.id ∈ rest.map (fun g => g.id) :=
                List.mem_map_of_mem (fun g => g.id) ha
              rw [haid, ← hp] at hmem
              exact hr hmem
            simp [ht, hr, hp]
            rw [if_neg hcond]
            apply iff_of_true
            · rw [ht, hp]
            · exact ⟨primary, ⟨hprimG,
                by simpa using (List.mem_filter.mp hprimS).2⟩, rfl⟩
          · simp [ht, hr, hp]
            intro x hx htit hEq
            have hmm : gid ∈ (w.groups.filter
                (fun g2 => g2.title = title)).map (fun g2 => g2.id) := by
              rw [hEq]
              exact List.mem_map_of_mem _ (List.mem_filter.mpr ⟨hx, by simp [htit]⟩)
            rcases (hIdCases gid).mp hmm with h1 | h2
            · exact hp h1
            · exact hr h2
    rw [hft, List.map_map]
    apply List.map_congr_left
    intro t _
    cases htg : t.groupId with
    | none => simp [Function.comp, htg]
    | some gid =>
      by_cases hr : gid ∈ rest.map (fun g => g.id)
      · simp [Function.comp, htg, hr]
      · simp [Function.comp, htg, hr]

/-- C1 counterexample: dedupeGroups guards on a falsy title
(`if (windowId == null || !title) return;`), so for the empty title it is
a no-op: on a stable snapshot holding two unnamed (empty-titled) groups,
both survive the call, refuting "for every title ... at most one group
with that title remains" as stated. -/
theorem C1_counterexample :
    wfWindow ⟨[⟨1, some 10⟩, ⟨2, some 11⟩],
      [⟨10, [], str "grey"⟩, ⟨11, [], str "blue"⟩]⟩ ∧
    dedupeGroups [] (some (str "blue"))
      ⟨[⟨1, some 10⟩, ⟨2, some 11⟩],
       [⟨10, [], str "grey"⟩, ⟨11, [], str "blue"⟩]⟩ =
      ⟨[⟨1, some 10⟩, ⟨2, some 11⟩],
       [⟨10, [], str "grey"⟩, ⟨11, [], str "blue"⟩]⟩ ∧
    ¬ ((dedupeGroups [] (some (str "blue"))
        ⟨[⟨1, some 10⟩, ⟨2, some 11⟩],
         [⟨10, [], str "grey"⟩, ⟨11, [], str "blue"⟩]⟩).groups.filter
      (fun g => g.title = ([] : Str))).length ≤ 1 :=
  ⟨⟨by decide, by decide⟩, by decide, by decide⟩

/-- C1 (amended): on a stable snapshot with distinct group ids, for every
NONEMPTY title, after dedupeGroups at most one group with the given title
remains in the window; when two or more existed, exactly one remains, its
id is the smallest id among the original same-title groups, and its member
tab set (as the id list in tab order) equals the union of the member sets
of all original same-title groups; when at most one existed, the call
changes nothing.  For the empty title the call is always a no-op — the
source guard `if (windowId == null || !title) return;` fires — so unnamed
groups are never merged (see `C1_counterexample`). -/
theorem C1_dedupe_invariant (w : WindowState) (title : Str) (color : Option Str)
    (hw : wfWindow w) (ht : title ≠ []) :
    ((dedupeGroups title color w).groups.filter
        (fun g => g.title = title)).length ≤ 1 ∧
    ((w.groups.filter (fun g => g.title = title)).length ≤ 1 →
        dedupeGroups title color w = w) ∧
    (2 ≤ (w.groups.filter (fun g => g.title = title)).length →
        ((dedupeGroups title color w).groups.filter
            (fun g => g.title = title)).length = 1 ∧
        ∀ g2 ∈ (dedupeGroups title color w).groups, g2.title = title →
          (g2.id ∈ (w.groups.filter (fun g => g.title = title)).map
              (fun g => g.id) ∧
           (∀ i ∈ (w.groups.filter (fun g => g.title = title)).map
              (fun g => g.id), g2.id ≤ i) ∧
           ((dedupeGroups title color w).tabs.filter
              (fun t => t.groupId = some g2.id)).map (fun t => t.id) =
             (w.tabs.filter
               (fun (t : GTab) => decide (∃ g ∈ w.groups.filter
                   (fun (g3 : TabGroup) => g3.title = title),
                 t.groupId = some g.id))).map (fun t => t.id))) ∧
    dedupeGroups [] color w = w := by
  have hguard : dedupeGroups [] color w = w := by
    simp [dedupeGroups]
  by_cases hle : (w.groups.filter (fun g => g.title = title)).length ≤ 1
  · have hid : dedupeGroups title color w = w := by
      simp only [dedupeGroups]
      rw [if_neg ht, if_pos hle]
    refine ⟨?_, fun _ => hid, fun hcontra => absurd hcontra (by omega), hguard⟩
    rw [hid]
    exact hle
  · have h2 : 2 ≤ (w.groups.filter (fun g => g.title = title)).length := by omega
    have hlen : (List.insertionSort (fun a b : TabGroup => a.id ≤ b.id)
        (w.groups.filter (fun g => g.title = title))).length =
        (w.groups.filter (fun g => g.title = title)).length :=
      (List.perm_insertionSort _ _).length_eq
    obtain ⟨primary, rest, hps⟩ : ∃ p r,
        List.insertionSort (fun a b : TabGroup => a.id ≤ b.id)
          (w.groups.filter (fun g => g.title = title)) = p :: r := by
      cases hcase : List.insertionSort (fun a b : TabGroup => a.id ≤ b.id)
          (w.groups.filter (fun g => g.title = title)) with
      | nil =>
        rw [hcase] at hlen
        simp at hlen
        omega
      | cons p r => exact ⟨p, r, rfl⟩
    have hdef : dedupeGroups title color w = mergeInto title color primary rest w := by
      simp only [dedupeGroups, hps]
      rw [if_neg ht, if_neg hle]
    obtain ⟨hfilt, hidmem, hmin, htabs⟩ :=
      mergeInto_spec w title color primary rest hw.1 hps
    have hflen : ((dedupeGroups title color w).groups.filter
        (fun g => g.title = title)).length = 1 := by
      rw [hdef, hfilt]
      rfl
    refine ⟨by omega, fun hcontra => absurd hcontra (by omega),
      fun _ => ⟨hflen, ?_⟩, hguard⟩
    intro g2 hg2 ht2
    have hg2f : g2 ∈ (dedupeGroups title color w).groups.filter
        (fun g => g.title = title) :=
      List.mem_filter.mpr ⟨hg2, by simp [ht2]⟩
    rw [hdef, hfilt] at hg2f
    have hg2eq : g2 = (⟨primary.id, title, color.getD primary.color⟩ : TabGroup) := by
      simpa using hg2f
    have hg2id : g2.id = primary.id := by
      rw [hg2eq]
    rw [hg2id]
    exact ⟨hidmem, hmin, by rw [hdef]; exact htabs⟩

theorem C1_dedupe_invariant_witness :
    ((dedupeGroups (str "GitHub") (some (str "blue"))
        ⟨[⟨1, some 10⟩, ⟨2, some 10⟩, ⟨3, some 11⟩, ⟨4, some 12⟩, ⟨5, some 12⟩],
         [⟨10, str "GitHub", str "grey"⟩, ⟨11, str "GitHub", str "red"⟩,
          ⟨12, str "GitHub", str "blue"⟩]⟩).groups.filter
      (fun g => g.title = str "GitHub")).length ≤ 1 :=
  (C1_dedupe_invariant
    ⟨[⟨1, some 10⟩, ⟨2, some 10⟩, ⟨3, some 11⟩, ⟨4, some 12⟩, ⟨5, some 12⟩],
     [⟨10, str "GitHub", str "grey"⟩, ⟨11, str "GitHub", str "red"⟩,
      ⟨12, str "GitHub", str "blue"⟩]⟩
    (str "GitHub") (some (str "blue")) ⟨by decide, by decide⟩ (by decide)).1

/-! ## WindowReconciler — organizeWindow (source: organizeWindow)

A window snapshot is the list of tabs in index order (the code's
`tabs.sort((a,b) => a.index - b.index)` is the identity on it), so tab
indices are list positions.  `orderedPairsAux` is the loop that records
each group id with the index of its first member tab; the result is then
sorted by that first index (JavaScript's stable sort, modelled by
insertion sort).  `moveGroupTo` models `chrome.tabGroups.move` (the whole
block of member tabs is extracted and re-inserted so that it starts at
the requested index) and `moveTabTo` models `chrome.tabs.move`; a move of
a vanished tab throws and is swallowed, modelled by the `find?` guard. -/

structure OTab where
  id : Nat
  pinned : Bool
  groupId : Option Nat
deriving DecidableEq

def orderedPairsAux : Nat → List OTab → List (Nat × Nat) → List (Nat × Nat)
  | _, [], acc => acc
  | i, t :: ts, acc =>
    match t.groupId with
    | some gid =>
      if acc.any (fun q => q.1 = gid) then orderedPairsAux (i + 1) ts acc
      else orderedPairsAux (i + 1) ts (acc ++ [(gid, i)])
    | none => orderedPairsAux (i + 1) ts acc

def orderedGroups (l : List OTab) : List (Nat × Nat) :=
  List.insertionSort (fun a b : Nat × Nat => a.2 ≤ b.2) (orderedPairsAux 0 l [])

def orderedGroupIds (l : List OTab) : List Nat :=
  (orderedGroups l).map (fun p => p.1)

def collectGroupIds : List Nat → List OTab → List Nat
  | acc, [] => acc
  | acc, t :: ts =>
    match t.groupId with
    | some gid =>
      if gid ∈ acc then collectGroupIds acc ts
      else collectGroupIds (acc ++ [gid]) ts
    | none => collectGroupIds acc ts

def moveGroupTo (gid : Nat) (i : Nat) (l : List OTab) : List OTab :=
  let block := l.filter (fun t => t.groupId = some gid)
  let rest := l.filter (fun t => ¬ t.groupId = some gid)
  rest.take i ++ block ++ rest.drop i

def moveTabTo (tid : Nat) (i : Nat) (l : List OTab) : List OTab :=
  match l.find? (fun t => t.id = tid) with
  | none => l
  | some t =>
    let rest := l.filter (fun s => ¬ s.id = tid)
    rest.take i ++ t :: rest.drop i

def groupMoveStep (p : List OTab × Nat) (gid : Nat) : List OTab × Nat :=
  let st := moveGroupTo gid p.2 p.1
  let cnt := (st.filter (fun t => t.groupId = some gid)).length
  (st, p.2 + cnt)

def ungroupedMoveStep (p : List OTab × Nat) (t : OTab) : List OTab × Nat :=
  match p.1.find? (fun s => s.id = t.id) with
  | none => p
  | some _ => (moveTabTo t.id p.2 p.1, p.2 + 1)

def organizeWindow (tabs : List OTab) : List OTab :=
  let pinnedTabs := tabs.filter (fun t => t.pinned)
  let unpinnedTabs := tabs.filter (fun t => ¬ t.pinned)
  let gids := orderedGroupIds unpinnedTabs
  let ungroupedTabs := unpinnedTabs.filter (fun t => t.groupId = none)
  let afterGroups := gids.foldl groupMoveStep (tabs, pinnedTabs.length)
  (ungroupedTabs.foldl ungroupedMoveStep afterGroups).1

def targetLayout (tabs : List OTab) : List OTab :=
  let pinnedTabs := tabs.filter (fun t => t.pinned)
  let unpinnedTabs := tabs.filter (fun t => ¬ t.pinned)
  pinnedTabs ++
    (orderedGroupIds unpinnedTabs).flatMap
      (fun gid => unpinnedTabs.filter (fun t => t.groupId = some gid)) ++
    unpinnedTabs.filter (fun t => t.groupId = none)

def wfSnapshot (tabs : List OTab) : Prop :=
  (tabs.map (fun t => t.id)).Nodup ∧
  tabs = tabs.filter (fun t => t.pinned) ++ tabs.filter (fun t => ¬ t.pinned) ∧
  (∀ t ∈ tabs, t.pinned = true → t.groupId = none)

theorem any_fst_eq_mem_map (acc : List (Nat × Nat)) (gid : Nat) :
    (acc.any (fun q => q.1 = gid)) = decide (gid ∈ acc.map (fun p => p.1)) := by
  by_cases h : gid ∈ acc.map (fun p => p.1)
  · rcases List.mem_map.mp h with ⟨q, hq, hqe⟩
    rw [decide_eq_true h]
    exact List.any_eq_true.mpr ⟨q, hq, by simp [hqe]⟩
  · rw [decide_eq_false h]
    rw [List.any_eq_false]
    intro q hq
    simp only [decide_eq_true_eq]
    intro hqe
    exact h (List.mem_map.mpr ⟨q, hq, hqe⟩)

theorem orderedPairsAux_map_fst (ts : List OTab) :
    ∀ (i : Nat) (acc : List (Nat × Nat)),
    (orderedPairsAux i ts acc).map (fun p => p.1) =
      collectGroupIds (acc.map (fun p => p.1)) ts := by
  induction ts with
  | nil => intro i acc; rfl
  | cons t ts ih =>
    intro i acc
    cases ht : t.groupId with
    | none => simp only [orderedPairsAux, collectGroupIds, ht]; exact ih _ _
    | some gid =>
      simp only [orderedPairsAux, collectGroupIds, ht, any_fst_eq_mem_map]
      by_cases hm : gid ∈ acc.map (fun p => p.1)
      · simp only [decide_eq_true hm, if_pos hm, if_true]
        exact ih _ _
      · simp only [decide_eq_false hm, Bool.false_eq_true, if_false, if_neg hm]
        rw [ih _ _]
        simp

theorem orderedPairsAux_sorted (ts : List OTab) :
    ∀ (i : Nat) (acc : List (Nat × Nat)),
    (∀ q ∈ acc, q.2 < i) →
    List.Sorted (fun a b : Nat × Nat => a.2 ≤ b.2) acc →
    (∀ q ∈ orderedPairsAux i ts acc, q.2 < i + ts.length) ∧
    List.Sorted (fun a b : Nat × Nat => a.2 ≤ b.2) (orderedPairsAux i ts acc) := by
  induction ts with
  | nil =>
    intro i acc hb hs
    exact ⟨fun q hq => by have := hb q hq; omega, hs⟩
  | cons t ts ih =>
    intro i acc hb hs
    have hlen : (t :: ts).length = ts.length + 1 := rfl
    cases ht : t.groupId with
    | none =>
      simp only [orderedPairsAux, ht]
      have := ih (i + 1) acc (fun q hq => by have := hb q hq; omega) hs
      exact ⟨fun q hq => by have := this.1 q hq; simp only [hlen]; omega, this.2⟩
    | some gid =>
      simp only [orderedPairsAux, ht]
      by_cases hc : (acc.any (fun q => q.1 = gid)) = true
      · rw [if_pos hc]
        have := ih (i + 1) acc (fun q hq => by have := hb q hq; omega) hs
        exact ⟨fun q hq => by have := this.1 q hq; simp only [hlen]; omega, this.2⟩
      · rw [if_neg hc]
        have hb2 : ∀ q ∈ acc ++ [(gid, i)], q.2 < i + 1 := by
          intro q hq
          rcases List.mem_append.mp hq with hq | hq
          · have := hb q hq; omega
          · simp at hq
            rw [hq]
            omega
        have hs2 : List.Sorted (fun a b : Nat × Nat => a.2 ≤ b.2)
            (acc ++ [(gid, i)]) := by
          rw [List.Sorted, List.pairwise_append]
          refine ⟨hs, List.pairwise_singleton _ _, ?_⟩
          intro a ha b hb2
          simp at hb2
          rw [hb2]
          have := hb a ha
          omega
        have := ih (i + 1) (acc ++ [(gid, i)]) hb2 hs2
        exact ⟨fun q hq => by have := this.1 q hq; simp only [hlen]; omega, this.2⟩

theorem orderedGroupIds_eq_collect (l : List OTab) :
    orderedGroupIds l = collectGroupIds [] l := by
  unfold orderedGroupIds orderedGroups
  rw [List.Sorted.insertionSort_eq
    (orderedPairsAux_sorted l 0 [] (by simp) (List.sorted_nil)).2]
  exact orderedPairsAux_map_fst l 0 []

theorem collectGroupIds_acc_sub (ts : List OTab) :
    ∀ acc, ∀ g ∈ acc, g ∈ collectGroupIds acc ts := by
  induction ts with
  | nil => intro acc g hg; exact hg
  | cons t ts ih =>
    intro acc g hg
    cases ht : t.groupId with
    | none => simp only [collectGroupIds, ht]; exact ih acc g hg
    | some gid =>
      simp only [collectGroupIds, ht]
      by_cases hm : gid ∈ acc
      · rw [if_pos hm]; exact ih acc g hg
      · rw [if_neg hm]; exact ih _ g (List.mem_append_left _ hg)

theorem collectGroupIds_complete (ts : List OTab) :
    ∀ acc, ∀ t ∈ ts, ∀ g, t.groupId = some g → g ∈ collectGroupIds acc ts := by
  induction ts with
  | nil => intro acc t ht; cases ht
  | cons u ts ih =>
    intro acc t ht g hg
    rcases List.mem_cons.mp ht with rfl | hts
    · simp only [collectGroupIds, hg]
      by_cases hm : g ∈ acc
      · rw [if_pos hm]; exact collectGroupIds_acc_sub ts acc g hm
      · rw [if_neg hm]
        exact collectGroupIds_acc_sub ts _ g (List.mem_append_right _ (by simp))
    · cases hu : u.groupId with
      | none => simp only [collectGroupIds, hu]; exact ih acc t hts g hg
      | some gid =>
        simp only [collectGroupIds, hu]
        by_cases hm : gid ∈ acc
        · rw [if_pos hm]; exact ih acc t hts g hg
        · rw [if_neg hm]; exact ih _ t hts g hg

theorem collectGroupIds_sound (ts : List OTab) :
    ∀ acc, ∀ g ∈ collectGroupIds acc ts,
      g ∈ acc ∨ ∃ t ∈ ts, t.groupId = some g := by
  induction ts with
  | nil => intro acc g hg; exact Or.inl hg
  | cons t ts ih =>
    intro acc g hg
    cases ht : t.groupId with
    | none =>
      simp only [collectGroupIds, ht] at hg
      rcases ih acc g hg with h | ⟨u, hu, hgu⟩
      · exact Or.inl h
      · exact Or.inr ⟨u, List.mem_cons_of_mem t hu, hgu⟩
    | some gid =>
      simp only [collectGroupIds, ht] at hg
      by_cases hm : gid ∈ acc
      · rw [if_pos hm] at hg
        rcases ih acc g hg with h | ⟨u, hu, hgu⟩
        · exact Or.inl h
        · exact Or.inr ⟨u, List.mem_cons_of_mem t hu, hgu⟩
      · rw [if_neg hm] at hg
        rcases ih _ g hg with h | ⟨u, hu, hgu⟩
        · rcases List.mem_append.mp h with h | h
          · exact Or.inl h
          · simp at h
            exact Or.inr ⟨t, List.mem_cons_self t ts, by rw [ht, h]⟩
        · exact Or.inr ⟨u, List.mem_cons_of_mem t hu, hgu⟩

theorem collectGroupIds_nodup (ts : List OTab) :
    ∀ acc, acc.Nodup → (collectGroupIds acc ts).Nodup := by
  induction ts with
  | nil => intro acc h; exact h
  | cons t ts ih =>
    intro acc h
    cases ht : t.groupId with
    | none => simp only [collectGroupIds, ht]; exact ih acc h
    | some gid =>
      simp only [collectGroupIds, ht]
      by_cases hm : gid ∈ acc
      · rw [if_pos hm]; exact ih acc h
      · rw [if_neg hm]
        refine ih _ ?_
        rw [List.nodup_append]
        refine ⟨h, List.nodup_singleton _, ?_⟩
        intro a ha hb
        simp only [List.mem_singleton] at hb
        rw [hb] at ha
        exact hm ha

theorem flatMap_congr_mem {α β : Type} (l : List α) (f g : α → List β)
    (h : ∀ a ∈ l, f a = g a) : l.flatMap f = l.flatMap g := by
  induction l with
  | nil => rfl
  | cons a as ih =>
    rw [List.flatMap_cons, List.flatMap_cons, h a (List.mem_cons_self a as),
      ih (fun b hb => h b (List.mem_cons_of_mem a hb))]

theorem groupMoves_spec (gids : List Nat) :
    ∀ (A R : List OTab), gids.Nodup →
    (∀ t ∈ A, ∀ g ∈ gids, ¬ t.groupId = some g) →
    gids.foldl groupMoveStep (A ++ R, A.length) =
      (A ++ gids.flatMap (fun g => R.filter (fun t => t.groupId = some g)) ++
        R.filter (fun (t : OTab) => decide (∀ g ∈ gids, ¬ t.groupId = some g)),
       A.length +
        (gids.flatMap (fun g => R.filter (fun t => t.groupId = some g))).length) := by
  induction gids with
  | nil =>
    intro A R _ _
    simp only [List.foldl_nil, List.flatMap_nil, List.append_nil, List.length_nil]
    have hfa : R.filter (fun (t : OTab) =>
        decide (∀ g ∈ ([] : List Nat), ¬ t.groupId = some g)) = R := by
      rw [List.filter_eq_self]
      intro a _
      simp
    rw [hfa]
    simp
  | cons g1 gs ih =>
    intro A R hnd hA
    have hnd1 : g1 ∉ gs := (List.nodup_cons.mp hnd).1
    have hndgs : gs.Nodup := (List.nodup_cons.mp hnd).2
    have hAnil : A.filter (fun t => t.groupId = some g1) = [] := by
      rw [List.filter_eq_nil_iff]
      intro a ha
      simp only [decide_eq_true_eq]
      exact hA a ha g1 (List.mem_cons_self g1 gs)
    have hAself : A.filter (fun t => ¬ t.groupId = some g1) = A := by
      rw [List.filter_eq_self]
      intro a ha
      simp only [decide_eq_true_eq]
      exact hA a ha g1 (List.mem_cons_self g1 gs)
    have hst : moveGroupTo g1 A.length (A ++ R) =
        A ++ R.filter (fun t => t.groupId = some g1) ++
          R.filter (fun t => ¬ t.groupId = some g1) := by
      have hb : (A ++ R).filter (fun t => t.groupId = some g1) =
          R.filter (fun t => t.groupId = some g1) := by
        rw [List.filter_append, hAnil, List.nil_append]
      have hr : (A ++ R).filter (fun t => ¬ t.groupId = some g1) =
          A ++ R.filter (fun t => ¬ t.groupId = some g1) := by
        rw [List.filter_append, hAself]
      simp only [moveGroupTo]
      rw [hb, hr, List.take_left, List.drop_left]
    have hcnt : ((A ++ R.filter (fun t => t.groupId = some g1) ++
        R.filter (fun t => ¬ t.groupId = some g1)).filter
          (fun t => t.groupId = some g1)).length =
        (R.filter (fun t => t.groupId = some g1)).length := by
      rw [List.filter_append, List.filter_append, hAnil, List.nil_append]
      have h1 : (R.filter (fun t => t.groupId = some g1)).filter
          (fun t => t.groupId = some g1) =
          R.filter (fun t => t.groupId = some g1) := by
        rw [List.filter_eq_self]
        intro a ha
        exact (List.mem_filter.mp ha).2
      have h2 : (R.filter (fun t => ¬ t.groupId = some g1)).filter
          (fun t => t.groupId = some g1) = [] := by
        rw [List.filter_eq_nil_iff]
        intro a ha
        have := (List.mem_filter.mp ha).2
        simp only [decide_eq_true_eq] at this ⊢
        exact this
      rw [h1, h2, List.append_nil]
    have hstep : groupMoveStep (A ++ R, A.length) g1 =
        ((A ++ R.filter (fun t => t.groupId = some g1)) ++
          R.filter (fun t => ¬ t.groupId = some g1),
         (A ++ R.filter (fun t => t.groupId = some g1)).length) := by
      simp only [groupMoveStep, hst, hcnt, List.length_append]
    rw [List.foldl_cons, hstep]
    have hA2 : ∀ t ∈ A ++ R.filter (fun t => t.groupId = some g1),
        ∀ g ∈ gs, ¬ t.groupId = some g := by
      intro t htm g hg hEq
      rcases List.mem_append.mp htm with hta | htb
      · exact hA t hta g (List.mem_cons_of_mem g1 hg) hEq
      · have := (List.mem_filter.mp htb).2
        simp only [decide_eq_true_eq] at this
        rw [hEq] at this
        have : g = g1 := by
          have := Option.some.injEq .. ▸ this
          omega
        rw [this] at hg
        exact hnd1 hg
    rw [ih (A ++ R.filter (fun t => t.groupId = some g1))
      (R.filter (fun t => ¬ t.groupId = some g1)) hndgs hA2]
    have hconv1 : ∀ g ∈ gs,
        (R.filter (fun t => ¬ t.groupId = some g1)).filter
          (fun t => t.groupId = some g) =
        R.filter (fun t => t.groupId = some g) := by
      intro g hg
      rw [List.filter_filter]
      apply List.filter_congr
      intro t _
      by_cases htg : t.groupId = some g
      · have hgne : ¬ g = g1 := fun hEq => hnd1 (hEq ▸ hg)
        have hne : ¬ t.groupId = some g1 := by
          rw [htg]
          intro hEq
          apply hgne
          simpa using hEq
        simp [htg, hne, hgne]
      · simp [htg]
    have hflat : gs.flatMap (fun g =>
        (R.filter (fun t => ¬ t.groupId = some g1)).filter
          (fun t => t.groupId = some g)) =
        gs.flatMap (fun g => R.filter (fun t => t.groupId = some g)) :=
      flatMap_congr_mem gs _ _ hconv1
    have hrem : (R.filter (fun t => ¬ t.groupId = some g1)).filter
        (fun (t : OTab) => decide (∀ g ∈ gs, ¬ t.groupId = some g)) =
        R.filter (fun (t : OTab) =>
          decide (∀ g ∈ (g1 :: gs), ¬ t.groupId = some g)) := by
      rw [List.filter_filter]
      apply List.filter_congr
      intro t _
      by_cases h1 : t.groupId = some g1
      · have hnall : ¬ (∀ g ∈ (g1 :: gs), ¬ t.groupId = some g) :=
          fun hall => hall g1 (List.mem_cons_self g1 gs) h1
        simp [h1, hnall]
      · by_cases h2 : ∀ g ∈ gs, ¬ t.groupId = some g
        · have hall : ∀ g ∈ (g1 :: gs), ¬ t.groupId = some g := by
            intro g hg
            rcases List.mem_cons.mp hg with rfl | hgs2
            · exact h1
            · exact h2 g hgs2
          simp [h1, h2, hall]
        · have hnall : ¬ (∀ g ∈ (g1 :: gs), ¬ t.groupId = some g) :=
            fun hall => h2 (fun g hg => hall g (List.mem_cons_of_mem g1 hg))
          simp [h1, h2, hnall]
    rw [hflat, hrem]
    simp only [Prod.mk.injEq, List.flatMap_cons]
    constructor
    · simp [List.append_assoc]
    · simp only [List.length_append]
      omega

theorem find?_append_none {α : Type} (p : α → Bool) (A l : List α)
    (h : ∀ a ∈ A, ¬ p a = true) : List.find? p (A ++ l) = List.find? p l := by
  induction A with
  | nil => rfl
  | cons a as ih =>
    rw [List.cons_append]
    cases hp : p a with
    | true => exact absurd hp (h a (List.mem_cons_self a as))
    | false =>
      simp only [List.find?_cons, hp]
      exact ih (fun b hb => h b (List.mem_cons_of_mem a hb))

theorem ungroupedMoves_spec (U : List OTab) :
    ∀ (A : List OTab), ((A ++ U).map (fun t => t.id)).Nodup →
    U.foldl ungroupedMoveStep (A ++ U, A.length) = (A ++ U, A.length + U.length) := by
  induction U with
  | nil =>
    intro A _
    simp [List.foldl_nil]
  | cons u U ih =>
    intro A hnd
    have hnd' := hnd
    rw [List.map_append, List.nodup_append] at hnd'
    obtain ⟨ndA, ndRest, disj⟩ := hnd'
    have hAne : ∀ a ∈ A, ¬ (decide (a.id = u.id)) = true := by
      intro a ha
      simp only [decide_eq_true_eq]
      intro hEq
      have h1 : a.id ∈ A.map (fun t => t.id) := List.mem_map_of_mem _ ha
      have h2 : a.id ∈ (u :: U).map (fun t => t.id) := by
        rw [hEq]
        simp
      exact disj h1 h2
    have hUne : ∀ x ∈ U, ¬ x.id = u.id := by
      intro x hx hEq
      rw [List.map_cons, List.nodup_cons] at ndRest
      apply ndRest.1
      rw [← hEq]
      exact List.mem_map_of_mem _ hx
    have hfind : (A ++ u :: U).find? (fun s => s.id = u.id) = some u := by
      rw [find?_append_none _ A _ hAne]
      simp [List.find?_cons]
    have hfilter : (A ++ u :: U).filter (fun s => ¬ s.id = u.id) = A ++ U := by
      rw [List.filter_append]
      have h1 : A.filter (fun s => ¬ s.id = u.id) = A := by
        rw [List.filter_eq_self]
        intro a ha
        simp only [decide_eq_true_eq]
        intro hEq
        exact hAne a ha (by simp [hEq])
      have h2 : (u :: U).filter (fun s => ¬ s.id = u.id) = U := by
        rw [List.filter_cons]
        rw [if_neg (by simp)]
        rw [List.filter_eq_self]
        intro x hx
        simp only [decide_eq_true_eq]
        exact hUne x hx
      rw [h1, h2]
    have hmv : moveTabTo u.id A.length (A ++ u :: U) = A ++ u :: U := by
      simp only [moveTabTo, hfind]
      rw [hfilter, List.take_left, List.drop_left]
    have hstep : ungroupedMoveStep (A ++ u :: U, A.length) u =
        (A ++ u :: U, A.length + 1) := by
      simp only [ungroupedMoveStep, hfind, hmv]
    rw [List.foldl_cons, hstep]
    have hshape : A ++ u :: U = (A ++ [u]) ++ U := by simp
    rw [hshape] at hnd ⊢
    have hlen : A.length + 1 = (A ++ [u]).length := by simp
    rw [hlen, ih (A ++ [u]) hnd]
    simp only [Prod.mk.injEq]
    refine ⟨by trivial, ?_⟩
    simp only [List.length_append, List.length_cons, List.length_nil]
    omega

theorem filter_block_sub (R : List OTab) (g g1 : Nat) (hne : ¬ g = g1) :
    (R.filter (fun t => ¬ t.groupId = some g1)).filter
      (fun t => t.groupId = some g) =
    R.filter (fun t => t.groupId = some g) := by
  rw [List.filter_filter]
  apply List.filter_congr
  intro t _
  by_cases htg : t.groupId = some g
  · have hno : ¬ t.groupId = some g1 := by
      rw [htg]
      intro hEq
      exact hne (by simpa using hEq)
    simp [htg, hno, hne]
  · simp [htg]

theorem filter_none_sub (R : List OTab) (g1 : Nat) :
    (R.filter (fun t => ¬ t.groupId = some g1)).filter
      (fun t => t.groupId = none) =
    R.filter (fun t => t.groupId = none) := by
  rw [List.filter_filter]
  apply List.filter_congr
  intro t _
  by_cases htg : t.groupId = none
  · have hno : ¬ t.groupId = some g1 := by
      rw [htg]
      intro hEq
      cases hEq
    simp [htg, hno]
  · simp [htg]

theorem blocks_perm (gids : List Nat) :
    ∀ (R : List OTab), gids.Nodup →
    (∀ t ∈ R, ∀ g, t.groupId = some g → g ∈ gids) →
    (gids.flatMap (fun g => R.filter (fun t => t.groupId = some g)) ++
      R.filter (fun t => t.groupId = none)).Perm R := by
  induction gids with
  | nil =>
    intro R _ hc
    simp only [List.flatMap_nil, List.nil_append]
    have hall : R.filter (fun t => t.groupId = none) = R := by
      rw [List.filter_eq_self]
      intro t htm
      simp only [decide_eq_true_eq]
      cases htg : t.groupId with
      | none => rfl
      | some g => exact absurd (hc t htm g htg) (List.not_mem_nil g)
    rw [hall]
  | cons g1 gs ih =>
    intro R hnd hc
    have hnd1 : g1 ∉ gs := (List.nodup_cons.mp hnd).1
    have hndgs : gs.Nodup := (List.nodup_cons.mp hnd).2
    have hsplit : (R.filter (fun t => t.groupId = some g1) ++
        R.filter (fun t => ¬ t.groupId = some g1)).Perm R := by
      have hbase := List.filter_append_perm
        (fun t => t.groupId = some g1) R
      have heqf : R.filter (fun (t : OTab) =>
          !(decide (t.groupId = some g1))) =
          R.filter (fun t => ¬ t.groupId = some g1) := by
        apply List.filter_congr
        intro t _
        by_cases h : t.groupId = some g1
        · simp [h]
        · simp [h]
      rw [heqf] at hbase
      exact hbase
    have hcomp1 : ∀ t ∈ R.filter (fun t => ¬ t.groupId = some g1),
        ∀ g, t.groupId = some g → g ∈ gs := by
      intro t htm g htg
      have htR := List.mem_of_mem_filter htm
      have hfil := (List.mem_filter.mp htm).2
      simp only [decide_eq_true_eq] at hfil
      rcases List.mem_cons.mp (hc t htR g htg) with rfl | hgs
      · exact absurd htg hfil
      · exact hgs
    have hih := ih (R.filter (fun t => ¬ t.groupId = some g1)) hndgs hcomp1
    have hfl : gs.flatMap (fun g =>
        (R.filter (fun t => ¬ t.groupId = some g1)).filter
          (fun t => t.groupId = some g)) =
        gs.flatMap (fun g => R.filter (fun t => t.groupId = some g)) := by
      apply flatMap_congr_mem
      intro g hg
      exact filter_block_sub R g g1 (fun hEq => hnd1 (hEq ▸ hg))
    rw [hfl, filter_none_sub R g1] at hih
    rw [List.flatMap_cons, List.append_assoc]
    exact List.Perm.trans
      (List.Perm.append_left (R.filter (fun t => t.groupId = some g1)) hih)
      hsplit

theorem targetLayout_perm (tabs : List OTab) (hw : wfSnapshot tabs) :
    (targetLayout tabs).Perm tabs := by
  obtain ⟨hnd, hsplit, hpin⟩ := hw
  have hgnd : (orderedGroupIds (tabs.filter (fun t => ¬ t.pinned))).Nodup := by
    rw [orderedGroupIds_eq_collect]
    exact collectGroupIds_nodup _ [] List.nodup_nil
  have hcomp : ∀ t ∈ tabs.filter (fun t => ¬ t.pinned), ∀ g,
      t.groupId = some g →
      g ∈ orderedGroupIds (tabs.filter (fun t => ¬ t.pinned)) := by
    intro t htm g htg
    rw [orderedGroupIds_eq_collect]
    exact collectGroupIds_complete _ [] t htm g htg
  have hperm := blocks_perm _ _ hgnd hcomp
  unfold targetLayout
  rw [List.append_assoc]
  refine List.Perm.trans
    (List.Perm.append_left (tabs.filter (fun t => t.pinned)) hperm) ?_
  rw [← hsplit]

theorem organizeWindow_general (P U : List OTab)
    (hP : ∀ t ∈ P, t.pinned = true) (hU : ∀ t ∈ U, t.pinned = false)
    (hPnone : ∀ t ∈ P, t.groupId = none)
    (hnd : ((P ++ U).map (fun t => t.id)).Nodup) :
    organizeWindow (P ++ U) =
      P ++ (orderedGroupIds U).flatMap
          (fun g => U.filter (fun t => t.groupId = some g)) ++
        U.filter (fun t => t.groupId = none) := by
  have hfp : (P ++ U).filter (fun t => t.pinned) = P := by
    rw [List.filter_append]
    have h1 : P.filter (fun t => t.pinned) = P :=
      List.filter_eq_self.mpr (fun a ha => hP a ha)
    have h2 : U.filter (fun t => t.pinned) = [] :=
      List.filter_eq_nil_iff.mpr (fun a ha => by simp [hU a ha])
    rw [h1, h2, List.append_nil]
  have hfu : (P ++ U).filter (fun t => ¬ t.pinned) = U := by
    rw [List.filter_append]
    have h1 : P.filter (fun t => ¬ t.pinned) = [] :=
      List.filter_eq_nil_iff.mpr (fun a ha => by simp [hP a ha])
    have h2 : U.filter (fun t => ¬ t.pinned) = U :=
      List.filter_eq_self.mpr (fun a ha => by simp [hU a ha])
    rw [h1, h2, List.nil_append]
  have hgnd : (orderedGroupIds U).Nodup := by
    rw [orderedGroupIds_eq_collect]
    exact collectGroupIds_nodup _ [] List.nodup_nil
  have hcomp : ∀ t ∈ U, ∀ g, t.groupId = some g → g ∈ orderedGroupIds U := by
    intro t htm g htg
    rw [orderedGroupIds_eq_collect]
    exact collectGroupIds_complete _ [] t htm g htg
  have hA : ∀ t ∈ P, ∀ g ∈ orderedGroupIds U, ¬ t.groupId = some g := by
    intro t htm g _ hEq
    rw [hPnone t htm] at hEq
    cases hEq
  have hrem : U.filter (fun (t : OTab) =>
      decide (∀ g ∈ orderedGroupIds U, ¬ t.groupId = some g)) =
      U.filter (fun t => t.groupId = none) := by
    apply List.filter_congr
    intro t htm
    cases htg : t.groupId with
    | none =>
      have hall : ∀ g ∈ orderedGroupIds U, ¬ t.groupId = some g := by
        intro g _ hEq
        rw [htg] at hEq
        cases hEq
      simp [hall, htg]
    | some h =>
      have hmem := hcomp t htm h htg
      have hnall : ¬ (∀ g ∈ orderedGroupIds U, ¬ t.groupId = some g) :=
        fun hall => hall h hmem htg
      simp [hnall, htg, hmem]
  have hgfold := groupMoves_spec (orderedGroupIds U) P U hgnd hA
  have hperm : (P ++ (orderedGroupIds U).flatMap
      (fun g => U.filter (fun t => t.groupId = some g)) ++
      U.filter (fun t => t.groupId = none)).Perm (P ++ U) := by
    rw [List.append_assoc]
    exact List.Perm.append_left P (blocks_perm _ U hgnd hcomp)
  have hnd2 : (((P ++ (orderedGroupIds U).flatMap
      (fun g => U.filter (fun t => t.groupId = some g))) ++
      U.filter (fun t => t.groupId = none)).map (fun t => t.id)).Nodup := by
    have := (hperm.map (fun t => t.id)).nodup_iff.mpr hnd
    rw [List.append_assoc]
    rw [List.append_assoc] at this
    exact this
  have hufold := ungroupedMoves_spec (U.filter (fun t => t.groupId = none))
    (P ++ (orderedGroupIds U).flatMap
      (fun g => U.filter (fun t => t.groupId = some g))) hnd2
  simp only [organizeWindow, hfp, hfu]
  rw [hgfold, hrem]
  have hshape : P ++ (orderedGroupIds U).flatMap
      (fun g => U.filter (fun t => t.groupId = some g)) ++
      U.filter (fun t => t.groupId = none) =
      (P ++ (orderedGroupIds U).flatMap
        (fun g => U.filter (fun t => t.groupId = some g))) ++
      U.filter (fun t => t.groupId = none) := rfl
  have hlen : P.length + ((orderedGroupIds U).flatMap
      (fun g => U.filter (fun t => t.groupId = some g))).length =
      (P ++ (orderedGroupIds U).flatMap
        (fun g => U.filter (fun t => t.groupId = some g))).length := by
    rw [List.length_append]
  rw [hshape, hlen, hufold]

theorem organizeWindow_eq_target (tabs : List OTab) (hw : wfSnapshot tabs) :
    organizeWindow tabs = targetLayout tabs := by
  obtain ⟨hnd, hsplit, hpin⟩ := hw
  have hP : ∀ t ∈ tabs.filter (fun t => t.pinned), t.pinned = true :=
    fun t htm => (List.mem_filter.mp htm).2
  have hU : ∀ t ∈ tabs.filter (fun t => ¬ t.pinned), t.pinned = false := by
    intro t htm
    have h2 := (List.mem_filter.mp htm).2
    simpa using h2
  have hPnone : ∀ t ∈ tabs.filter (fun t => t.pinned), t.groupId = none :=
    fun t htm => hpin t (List.mem_filter.mp htm).1 (List.mem_filter.mp htm).2
  have hnd2 : (((tabs.filter (fun t => t.pinned)) ++
      (tabs.filter (fun t => ¬ t.pinned))).map (fun t => t.id)).Nodup := by
    rw [← hsplit]
    exact hnd
  have hgen := organizeWindow_general _ _ hP hU hPnone hnd2
  conv_lhs => rw [hsplit]
  rw [hgen]
  rfl

theorem collect_skip_block (ts : List OTab) :
    ∀ (acc : List Nat) (rest : List OTab) (g : Nat), g ∈ acc →
    (∀ t ∈ ts, t.groupId = some g) →
    collectGroupIds acc (ts ++ rest) = collectGroupIds acc rest := by
  induction ts with
  | nil => intro acc rest g _ _; rfl
  | cons t ts ih =>
    intro acc rest g hg hall
    have ht := hall t (List.mem_cons_self t ts)
    rw [List.cons_append]
    simp only [collectGroupIds, ht, if_pos hg]
    exact ih acc rest g hg (fun u hu => hall u (List.mem_cons_of_mem t hu))

theorem collect_none (U : List OTab) :
    ∀ acc, (∀ t ∈ U, t.groupId = none) → collectGroupIds acc U = acc := by
  induction U with
  | nil => intro acc _; rfl
  | cons t ts ih =>
    intro acc hall
    have ht := hall t (List.mem_cons_self t ts)
    simp only [collectGroupIds, ht]
    exact ih acc (fun u hu => hall u (List.mem_cons_of_mem t hu))

theorem collect_blocks (gs : List Nat) :
    ∀ (acc : List Nat) (B : Nat → List OTab) (U : List OTab),
    gs.Nodup → (∀ g ∈ gs, g ∉ acc) →
    (∀ g ∈ gs, B g ≠ [] ∧ ∀ t ∈ B g, t.groupId = some g) →
    (∀ t ∈ U, t.groupId = none) →
    collectGroupIds acc (gs.flatMap B ++ U) = acc ++ gs := by
  induction gs with
  | nil =>
    intro acc B U _ _ _ hUn
    simp only [List.flatMap_nil, List.nil_append, List.append_nil]
    exact collect_none U acc hUn
  | cons g1 gs ih =>
    intro acc B U hnd hacc hB hUn
    have hnd1 : g1 ∉ gs := (List.nodup_cons.mp hnd).1
    have hndgs : gs.Nodup := (List.nodup_cons.mp hnd).2
    obtain ⟨hne, htag⟩ := hB g1 (List.mem_cons_self g1 gs)
    obtain ⟨t1, bs, hb⟩ := List.exists_cons_of_ne_nil hne
    have ht1 : t1.groupId = some g1 := htag t1 (by rw [hb]; simp)
    have hg1acc : g1 ∉ acc := hacc g1 (List.mem_cons_self g1 gs)
    rw [List.flatMap_cons, hb]
    have hshape : (t1 :: bs) ++ gs.flatMap B ++ U =
        t1 :: (bs ++ (gs.flatMap B ++ U)) := by
      simp
    rw [hshape]
    simp only [collectGroupIds, ht1, if_neg hg1acc]
    rw [collect_skip_block bs (acc ++ [g1]) (gs.flatMap B ++ U) g1
      (List.mem_append_right acc (by simp))
      (fun u hu => htag u (by rw [hb]; exact List.mem_cons_of_mem t1 hu))]
    rw [ih (acc ++ [g1]) B U hndgs ?_ ?_ hUn]
    · simp
    · intro g hg hmem
      rcases List.mem_append.mp hmem with h | h
      · exact hacc g (List.mem_cons_of_mem g1 hg) h
      · simp only [List.mem_singleton] at h
        rw [h] at hg
        exact hnd1 hg
    · intro g hg
      exact hB g (List.mem_cons_of_mem g1 hg)

theorem filter_flatMap_not_mem (gs : List Nat) (B : Nat → List OTab) (g : Nat)
    (hg : g ∉ gs) (htag : ∀ g2 ∈ gs, ∀ t ∈ B g2, t.groupId = some g2) :
    (gs.flatMap B).filter (fun t => t.groupId = some g) = [] := by
  rw [List.filter_eq_nil_iff]
  intro t htm
  rcases List.mem_flatMap.mp htm with ⟨g2, hg2, htb⟩
  have := htag g2 hg2 t htb
  simp only [decide_eq_true_eq, this]
  intro hEq
  have hEq2 : g2 = g := by simpa using hEq
  rw [hEq2] at hg2
  exact hg hg2

theorem filter_flatMap_blocks (gs : List Nat) :
    ∀ (B : Nat → List OTab) (g : Nat), gs.Nodup → g ∈ gs →
    (∀ g2 ∈ gs, ∀ t ∈ B g2, t.groupId = some g2) →
    (gs.flatMap B).filter (fun t => t.groupId = some g) = B g := by
  induction gs with
  | nil => intro B g _ hg; cases hg
  | cons g1 gs ih =>
    intro B g hnd hg htag
    have hnd1 : g1 ∉ gs := (List.nodup_cons.mp hnd).1
    have hndgs : gs.Nodup := (List.nodup_cons.mp hnd).2
    rw [List.flatMap_cons, List.filter_append]
    rcases List.mem_cons.mp hg with rfl | hgs
    · have h1 : (B g).filter (fun t => t.groupId = some g) = B g := by
        rw [List.filter_eq_self]
        intro t htb
        simp [htag g (List.mem_cons_self g gs) t htb]
      have h2 : (gs.flatMap B).filter (fun t => t.groupId = some g) = [] :=
        filter_flatMap_not_mem gs B g hnd1
          (fun g2 hg2 => htag g2 (List.mem_cons_of_mem g hg2))
      rw [h1, h2, List.append_nil]
    · have h1 : (B g1).filter (fun t => t.groupId = some g) = [] := by
        rw [List.filter_eq_nil_iff]
        intro t htb
        have := htag g1 (List.mem_cons_self g1 gs) t htb
        simp only [decide_eq_true_eq, this]
        intro hEq
        have hEq2 : g1 = g := by simpa using hEq
        rw [← hEq2] at hgs
        exact hnd1 hgs
      rw [h1, List.nil_append]
      exact ih B g hndgs hgs (fun g2 hg2 => htag g2 (List.mem_cons_of_mem g1 hg2))

theorem filter_flatMap_none (gs : List Nat) (B : Nat → List OTab)
    (htag : ∀ g2 ∈ gs, ∀ t ∈ B g2, t.groupId = some g2) :
    (gs.flatMap B).filter (fun t => t.groupId = none) = [] := by
  rw [List.filter_eq_nil_iff]
  intro t htm
  rcases List.mem_flatMap.mp htm with ⟨g2, hg2, htb⟩
  simp [htag g2 hg2 t htb]

theorem targetLayout_expand (L : List OTab) :
    targetLayout L =
      L.filter (fun t => t.pinned) ++
        (orderedGroupIds (L.filter (fun t => ¬ t.pinned))).flatMap
          (fun g => (L.filter (fun t => ¬ t.pinned)).filter
            (fun t => t.groupId = some g)) ++
        (L.filter (fun t => ¬ t.pinned)).filter (fun t => t.groupId = none) := rfl

theorem targetLayout_filter_pinned (tabs : List OTab) :
    (targetLayout tabs).filter (fun t => t.pinned) =
      tabs.filter (fun t => t.pinned) := by
  rw [targetLayout_expand, List.filter_append, List.filter_append]
  have h1 : (tabs.filter (fun t => t.pinned)).filter (fun t => t.pinned) =
      tabs.filter (fun t => t.pinned) := by
    rw [List.filter_eq_self]
    intro a ha
    exact (List.mem_filter.mp ha).2
  have h2 : ((orderedGroupIds (tabs.filter (fun t => ¬ t.pinned))).flatMap
      (fun g => (tabs.filter (fun t => ¬ t.pinned)).filter
        (fun t => t.groupId = some g))).filter (fun t => t.pinned) = [] := by
    rw [List.filter_eq_nil_iff]
    intro t htm
    rcases List.mem_flatMap.mp htm with ⟨g, _, htb⟩
    have := (List.mem_filter.mp (List.mem_of_mem_filter htb)).2
    simpa using this
  have h3 : ((tabs.filter (fun t => ¬ t.pinned)).filter
      (fun t => t.groupId = none)).filter (fun t => t.pinned) = [] := by
    rw [List.filter_eq_nil_iff]
    intro t htm
    have := (List.mem_filter.mp (List.mem_of_mem_filter htm)).2
    simpa using this
  rw [h1, h2, h3, List.append_nil, List.append_nil]

theorem targetLayout_filter_unpinned (tabs : List OTab) :
    (targetLayout tabs).filter (fun t => ¬ t.pinned) =
      (orderedGroupIds (tabs.filter (fun t => ¬ t.pinned))).flatMap
        (fun g => (tabs.filter (fun t => ¬ t.pinned)).filter
          (fun t => t.groupId = some g)) ++
      (tabs.filter (fun t => ¬ t.pinned)).filter (fun t => t.groupId = none) := by
  rw [targetLayout_expand, List.filter_append, List.filter_append]
  have h1 : (tabs.filter (fun t => t.pinned)).filter (fun t => ¬ t.pinned) = [] := by
    rw [List.filter_eq_nil_iff]
    intro a ha
    have := (List.mem_filter.mp ha).2
    simp [this]
  have h2 : ((orderedGroupIds (tabs.filter (fun t => ¬ t.pinned))).flatMap
      (fun g => (tabs.filter (fun t => ¬ t.pinned)).filter
        (fun t => t.groupId = some g))).filter (fun t => ¬ t.pinned) =
      (orderedGroupIds (tabs.filter (fun t => ¬ t.pinned))).flatMap
        (fun g => (tabs.filter (fun t => ¬ t.pinned)).filter
          (fun t => t.groupId = some g)) := by
    rw [List.filter_eq_self]
    intro t htm
    rcases List.mem_flatMap.mp htm with ⟨g, _, htb⟩
    exact (List.mem_filter.mp (List.mem_of_mem_filter htb)).2
  have h3 : ((tabs.filter (fun t => ¬ t.pinned)).filter
      (fun t => t.groupId = none)).filter (fun t => ¬ t.pinned) =
      (tabs.filter (fun t => ¬ t.pinned)).filter
        (fun t => t.groupId = none) := by
    rw [List.filter_eq_self]
    intro t htm
    exact (List.mem_filter.mp (List.mem_of_mem_filter htm)).2
  rw [h1, h2, h3, List.nil_append]

theorem wfSnapshot_target (tabs : List OTab) (hw : wfSnapshot tabs) :
    wfSnapshot (targetLayout tabs) := by
  refine ⟨((targetLayout_perm tabs hw).map (fun t => t.id)).nodup_iff.mpr hw.1,
    ?_, ?_⟩
  · rw [targetLayout_filter_pinned, targetLayout_filter_unpinned,
      targetLayout_expand, List.append_assoc]
  · intro t htm hp
    exact hw.2.2 t ((targetLayout_perm tabs hw).mem_iff.mp htm) hp

theorem targetLayout_idem (tabs : List OTab) :
    targetLayout (targetLayout tabs) = targetLayout tabs := by
  have hgnd : (orderedGroupIds (tabs.filter (fun t => ¬ t.pinned))).Nodup := by
    rw [orderedGroupIds_eq_collect]
    exact collectGroupIds_nodup _ [] List.nodup_nil
  have htags : ∀ g2 ∈ orderedGroupIds (tabs.filter (fun t => ¬ t.pinned)),
      ∀ t ∈ (tabs.filter (fun t => ¬ t.pinned)).filter
        (fun t => t.groupId = some g2), t.groupId = some g2 := by
    intro g2 _ t htb
    have := (List.mem_filter.mp htb).2
    simpa using this
  have hBprops : ∀ g ∈ orderedGroupIds (tabs.filter (fun t => ¬ t.pinned)),
      (tabs.filter (fun t => ¬ t.pinned)).filter
        (fun t => t.groupId = some g) ≠ [] ∧
      ∀ t ∈ (tabs.filter (fun t => ¬ t.pinned)).filter
        (fun t => t.groupId = some g), t.groupId = some g := by
    intro g hg
    refine ⟨?_, htags g hg⟩
    rw [orderedGroupIds_eq_collect] at hg
    rcases collectGroupIds_sound _ [] g hg with h | ⟨t, htm, htg⟩
    · cases h
    · have : t ∈ (tabs.filter (fun t => ¬ t.pinned)).filter
          (fun t => t.groupId = some g) :=
        List.mem_filter.mpr ⟨htm, by simp [htg]⟩
      exact List.ne_nil_of_mem this
  have hUgnone : ∀ t ∈ (tabs.filter (fun t => ¬ t.pinned)).filter
      (fun t => t.groupId = none), t.groupId = none := by
    intro t htm
    have := (List.mem_filter.mp htm).2
    simpa using this
  rw [targetLayout_expand (targetLayout tabs),
    targetLayout_filter_pinned, targetLayout_filter_unpinned]
  have hOG : orderedGroupIds
      ((orderedGroupIds (tabs.filter (fun t => ¬ t.pinned))).flatMap
        (fun g => (tabs.filter (fun t => ¬ t.pinned)).filter
          (fun t => t.groupId = some g)) ++
        (tabs.filter (fun t => ¬ t.pinned)).filter
          (fun t => t.groupId = none)) =
      orderedGroupIds (tabs.filter (fun t => ¬ t.pinned)) := by
    rw [orderedGroupIds_eq_collect]
    rw [collect_blocks _ [] _ _ hgnd (by simp) hBprops hUgnone]
    simp
  rw [hOG]
  have hfilters : ∀ g ∈ orderedGroupIds (tabs.filter (fun t => ¬ t.pinned)),
      ((orderedGroupIds (tabs.filter (fun t => ¬ t.pinned))).flatMap
        (fun g2 => (tabs.filter (fun t => ¬ t.pinned)).filter
          (fun t => t.groupId = some g2)) ++
        (tabs.filter (fun t => ¬ t.pinned)).filter
          (fun t => t.groupId = none)).filter (fun t => t.groupId = some g) =
      (tabs.filter (fun t => ¬ t.pinned)).filter
        (fun t => t.groupId = some g) := by
    intro g hg
    rw [List.filter_append]
    have h1 := filter_flatMap_blocks
      (orderedGroupIds (tabs.filter (fun t => ¬ t.pinned)))
      (fun g2 => (tabs.filter (fun t => ¬ t.pinned)).filter
        (fun t => t.groupId = some g2)) g hgnd hg htags
    have h2 : ((tabs.filter (fun t => ¬ t.pinned)).filter
        (fun t => t.groupId = none)).filter
          (fun t => t.groupId = some g) = [] := by
      rw [List.filter_eq_nil_iff]
      intro t htm
      simp [hUgnone t htm]
    rw [h1, h2, List.append_nil]
  rw [flatMap_congr_mem _ _ _ hfilters]
  have hnone : ((orderedGroupIds (tabs.filter (fun t => ¬ t.pinned))).flatMap
      (fun g2 => (tabs.filter (fun t => ¬ t.pinned)).filter
        (fun t => t.groupId = some g2)) ++
      (tabs.filter (fun t => ¬ t.pinned)).filter
        (fun t => t.groupId = none)).filter (fun t => t.groupId = none) =
      (tabs.filter (fun t => ¬ t.pinned)).filter
        (fun t => t.groupId = none) := by
    rw [List.filter_append]
    rw [filter_flatMap_none _ _ htags]
    rw [List.nil_append, List.filter_eq_self]
    intro t htm
    simp [hUgnone t htm]
  rw [hnone]
  rw [← targetLayout_expand]

/-- C2: for every well-formed window snapshot (tab ids distinct, pinned
tabs forming a prefix, pinned tabs ungrouped), one reconciliation pass
(`organizeWindow`) produces exactly the target layout: the pinned tabs as
a fixed prefix, then each group's member tabs contiguously — groups in
the order of the index of their first member tab in the pre-pass snapshot
(`orderedGroupIds`), tabs within a group in their original relative order
(a `filter` of the snapshot) — then the ungrouped tabs in their original
relative order; every tab of the middle region is grouped and every tab
of the final region is ungrouped, so every grouped tab precedes every
ungrouped tab outside the pinned prefix. -/
theorem C2_reconciliation_layout (tabs : List OTab) (hw : wfSnapshot tabs) :
    organizeWindow tabs =
      tabs.filter (fun t => t.pinned) ++
        (orderedGroupIds (tabs.filter (fun t => ¬ t.pinned))).flatMap
          (fun gid => (tabs.filter (fun t => ¬ t.pinned)).filter
            (fun t => t.groupId = some gid)) ++
        (tabs.filter (fun t => ¬ t.pinned)).filter
          (fun t => t.groupId = none) ∧
    (∀ t ∈ (orderedGroupIds (tabs.filter (fun t => ¬ t.pinned))).flatMap
        (fun gid => (tabs.filter (fun t => ¬ t.pinned)).filter
          (fun t => t.groupId = some gid)), ∃ g, t.groupId = some g) ∧
    (∀ t ∈ (tabs.filter (fun t => ¬ t.pinned)).filter
        (fun t => t.groupId = none), t.groupId = none) := by
  refine ⟨?_, ?_, ?_⟩
  · rw [organizeWindow_eq_target tabs hw]
    exact targetLayout_expand tabs
  · intro t htm
    rcases List.mem_flatMap.mp htm with ⟨g, _, htb⟩
    have h2 := (List.mem_filter.mp htb).2
    exact ⟨g, by simpa using h2⟩
  · intro t htm
    have h2 := (List.mem_filter.mp htm).2
    simpa using h2

theorem C2_reconciliation_layout_witness :
    organizeWindow
        [⟨1, true, none⟩, ⟨2, false, some 7⟩, ⟨3, false, none⟩,
         ⟨4, false, some 9⟩, ⟨5, false, some 7⟩] =
      [⟨1, true, none⟩, ⟨2, false, some 7⟩, ⟨5, false, some 7⟩,
       ⟨4, false, some 9⟩, ⟨3, false, none⟩] := by
  rw [(C2_reconciliation_layout
    [⟨1, true, none⟩, ⟨2, false, some 7⟩, ⟨3, false, none⟩,
     ⟨4, false, some 9⟩, ⟨5, false, some 7⟩]
    ⟨by decide, by decide, by decide⟩).1]
  decide

/-- C3: the reconciliation pass is idempotent — on a well-formed window
snapshot, running `organizeWindow` a second time on the layout produced
by a completed pass, with no intervening external change, returns that
layout unchanged (the post-pass layout is a fixed point of the pass). -/
theorem C3_reconciliation_idempotent (tabs : List OTab) (hw : wfSnapshot tabs) :
    organizeWindow (organizeWindow tabs) = organizeWindow tabs := by
  rw [organizeWindow_eq_target tabs hw]
  rw [organizeWindow_eq_target (targetLayout tabs) (wfSnapshot_target tabs hw)]
  exact targetLayout_idem tabs

theorem C3_reconciliation_idempotent_witness :
    organizeWindow (organizeWindow
        [⟨1, true, none⟩, ⟨2, false, some 3⟩, ⟨4, false, none⟩,
         ⟨5, false, some 3⟩]) =
      organizeWindow
        [⟨1, true, none⟩, ⟨2, false, some 3⟩, ⟨4, false, none⟩,
         ⟨5, false, some 3⟩] :=
  C3_reconciliation_idempotent
    [⟨1, true, none⟩, ⟨2, false, some 3⟩, ⟨4, false, none⟩,
     ⟨5, false, some 3⟩]
    ⟨by decide, by decide, by decide⟩
